import Mathlib

/-
Verification development for the nbodycpp simulation core.

The source is embedded shallowly: the geometric data model (vector2D,
Bounds, Particle, QuadTree with insert / subdivide / query) is defined
over an arbitrary linear ordered field, mirroring the exact-arithmetic
reading of the double-precision source; the force pipeline
(forceAndJerk, BarnesHutForceAndJerk, the integrators) and the collision
pipeline (predictCollision, checkCollisions, the recentering phase of
updateParticles) are defined over the real numbers, with vector norms
given by Real.sqrt. Heap references (shared_ptr<Particle>) are modelled
by particle ids resolved against the current particle list, and the
OpenMP particle loops are modelled by their sequential execution order.
-/

namespace NBody

/-- Two-dimensional vector, modelling the class vector2D of vector2D.h. -/
@[ext]
structure Vec (α : Type) where
  x : α
  y : α
deriving DecidableEq

variable {α : Type} [LinearOrderedField α]

instance : Add (Vec α) := ⟨fun a b => ⟨a.x + b.x, a.y + b.y⟩⟩

instance : Sub (Vec α) := ⟨fun a b => ⟨a.x - b.x, a.y - b.y⟩⟩

instance : HMul (Vec α) α (Vec α) := ⟨fun v c => ⟨v.x * c, v.y * c⟩⟩

instance : HDiv (Vec α) α (Vec α) := ⟨fun v c => ⟨v.x / c, v.y / c⟩⟩

/-- Zero vector, the value written by vector2D.zero after it runs. -/
def Vec.zero : Vec α := ⟨0, 0⟩

/-- Dot product, modelling vector2D.dot. -/
def Vec.dot (a b : Vec α) : α := a.x * b.x + a.y * b.y

/-- Euclidean norm of a real vector, modelling vector2D.norm. -/
noncomputable def Vec.norm (v : Vec ℝ) : ℝ := Real.sqrt (v.x * v.x + v.y * v.y)

/-- Axis-aligned box, modelling the class Bounds of bounds.h
with fields xmin, ymin, width, height. -/
structure BoundsT (α : Type) where
  xmin : α
  ymin : α
  width : α
  height : α
deriving DecidableEq

/-- Constructor used wherever the source calls Bounds.set_bounds. -/
def setBounds (xmin ymin width height : α) : BoundsT α :=
  ⟨xmin, ymin, width, height⟩

/-- Right edge of a bounds box, modelling Bounds.getRight. -/
def BoundsT.getRight (b : BoundsT α) : α := b.xmin + b.width

/-- Top edge of a bounds box, modelling Bounds.getTop. -/
def BoundsT.getTop (b : BoundsT α) : α := b.ymin + b.height

/-- Half-open containment test, modelling Bounds.contains: the point is
in the box iff xmin <= x < xmin + width and ymin <= y < ymin + height. -/
def BoundsT.contains (b : BoundsT α) (v : Vec α) : Prop :=
  b.xmin ≤ v.x ∧ v.x < b.xmin + b.width ∧ b.ymin ≤ v.y ∧ v.y < b.ymin + b.height

instance (b : BoundsT α) (v : Vec α) : Decidable (b.contains v) :=
  decidable_of_iff
    (b.xmin ≤ v.x ∧ v.x < b.xmin + b.width ∧ b.ymin ≤ v.y ∧ v.y < b.ymin + b.height)
    Iff.rfl

/-- Box overlap test, modelling Bounds.intersects. -/
def BoundsT.intersects (a b : BoundsT α) : Prop :=
  ¬(a.xmin > b.getRight ∨ a.getRight < b.xmin ∨ a.getTop < b.ymin ∨ a.ymin > b.getTop)

instance (a b : BoundsT α) : Decidable (a.intersects b) :=
  decidable_of_iff
    (¬(a.xmin > b.getRight ∨ a.getRight < b.xmin ∨ a.getTop < b.ymin ∨ a.ymin > b.getTop))
    Iff.rfl

/-- Per-body record, modelling the class Particle of particle.h. -/
@[ext]
structure ParticleT (α : Type) where
  position : Vec α
  velocity : Vec α
  acceleration : Vec α
  jerk : Vec α
  position_pred : Vec α
  velocity_pred : Vec α
  id : Int
  mass : α
  radius : α
  isPrimary : Bool
  markForDeletion : Bool
deriving DecidableEq

/-- Convenience builder for test particles: acceleration, jerk and the
predictor scratch fields start at zero and both flags start false, as in
the Particle constructor. -/
def testP (pid : Int) (px py vx vy m r : α) : ParticleT α :=
  ⟨⟨px, py⟩, ⟨vx, vy⟩, Vec.zero, Vec.zero, Vec.zero, Vec.zero, pid, m, r, false, false⟩

/-- Leaf capacity bound of quadtree.h (MAX_CAPACITY). -/
def MAX_CAPACITY : Nat := 50

/-- Maximum tree depth of quadtree.h (MAX_DEPTH). -/
def MAX_DEPTH : Nat := 15

/-- Quadtree node, modelling the class QuadTree of quadtree.h.  The
boolean is_divided flag and the four-slot child array of the source are
represented by the two constructors: a leaf is an undivided node, a node
is a divided one with its four children in the fixed source order
nw, ne, sw, se (children[0..3]).  Both constructors keep the particle
vector, since the source object retains its vector after subdivision. -/
inductive QuadTree (α : Type) : Type where
  | leaf (bounds : BoundsT α) (depth : Nat) (totalMass thetaScale : α) (com : Vec α)
      (particles : List (ParticleT α))
  | node (bounds : BoundsT α) (depth : Nat) (totalMass thetaScale : α) (com : Vec α)
      (particles : List (ParticleT α))
      (nw ne sw se : QuadTree α)

/-- Bounds field of a quadtree node. -/
def QuadTree.bounds : QuadTree α → BoundsT α
  | .leaf b _ _ _ _ _ => b
  | .node b _ _ _ _ _ _ _ _ _ => b

/-- Depth field of a quadtree node. -/
def QuadTree.depth : QuadTree α → Nat
  | .leaf _ d _ _ _ _ => d
  | .node _ d _ _ _ _ _ _ _ _ => d

/-- Total-mass aggregate field of a quadtree node. -/
def QuadTree.totalMass : QuadTree α → α
  | .leaf _ _ tm _ _ _ => tm
  | .node _ _ tm _ _ _ _ _ _ _ => tm

/-- Opening-angle scale field of a quadtree node. -/
def QuadTree.thetaScale : QuadTree α → α
  | .leaf _ _ _ ts _ _ => ts
  | .node _ _ _ ts _ _ _ _ _ _ => ts

/-- Center-of-mass field of a quadtree node. -/
def QuadTree.com : QuadTree α → Vec α
  | .leaf _ _ _ _ c _ => c
  | .node _ _ _ _ c _ _ _ _ _ => c

/-- Particle list resident at a quadtree node. -/
def QuadTree.particles : QuadTree α → List (ParticleT α)
  | .leaf _ _ _ _ _ ps => ps
  | .node _ _ _ _ _ ps _ _ _ _ => ps

/-- Divided flag of a quadtree node. -/
def QuadTree.isDivided : QuadTree α → Bool
  | .leaf _ _ _ _ _ _ => false
  | .node _ _ _ _ _ _ _ _ _ _ => true

/-- Attempt to insert a particle into each of four children in the fixed
source order, stopping at the first success; this models the child loop
of QuadTree.insert and of QuadTree.subdivide.  A failed attempt keeps the
possibly mutated child, exactly as the source child object persists. -/
def insertFour (ins : QuadTree α → ParticleT α → QuadTree α × Bool)
    (c0 c1 c2 c3 : QuadTree α) (p : ParticleT α) :
    (QuadTree α × QuadTree α × QuadTree α × QuadTree α) × Bool :=
  let r0 := ins c0 p
  if r0.2 then ((r0.1, c1, c2, c3), true) else
  let r1 := ins c1 p
  if r1.2 then ((r0.1, r1.1, c2, c3), true) else
  let r2 := ins c2 p
  if r2.2 then ((r0.1, r1.1, r2.1, c3), true) else
  let r3 := ins c3 p
  ((r0.1, r1.1, r2.1, r3.1), r3.2)

/-- Redistribution loop of QuadTree.subdivide: each resident particle is
offered to the children in order; particles accepted by a child are
erased from the parent list and the rest are kept in place. -/
def redistribute (ins : QuadTree α → ParticleT α → QuadTree α × Bool) :
    List (ParticleT α) → QuadTree α × QuadTree α × QuadTree α × QuadTree α →
    List (ParticleT α) × (QuadTree α × QuadTree α × QuadTree α × QuadTree α)
  | [], cs => ([], cs)
  | p :: rest, (c0, c1, c2, c3) =>
    let r := insertFour ins c0 c1 c2 c3 p
    let rr := redistribute ins rest r.1
    (if r.2 then rr.1 else p :: rr.1, rr.2)

/-- North-west quadrant of a parent box (children[0] in subdivide). -/
def quadNW (b : BoundsT α) : BoundsT α :=
  setBounds b.xmin (b.ymin + b.height / 2) (b.width / 2) (b.height / 2)

/-- North-east quadrant of a parent box (children[1] in subdivide). -/
def quadNE (b : BoundsT α) : BoundsT α :=
  setBounds (b.xmin + b.width / 2) (b.ymin + b.height / 2) (b.width / 2) (b.height / 2)

/-- South-west quadrant of a parent box (children[2] in subdivide). -/
def quadSW (b : BoundsT α) : BoundsT α :=
  setBounds b.xmin b.ymin (b.width / 2) (b.height / 2)

/-- South-east quadrant of a parent box (children[3] in subdivide). -/
def quadSE (b : BoundsT α) : BoundsT α :=
  setBounds (b.xmin + b.width / 2) b.ymin (b.width / 2) (b.height / 2)

/-- Four fresh children tiling a parent box, in the source order
nw, ne, sw, se, with the aggregates initialised as by the QuadTree
constructor (totalMass = 0, thetaScale = 0, centerOfMass = (0,0)). -/
def freshChildren (b : BoundsT α) (d : Nat) :
    QuadTree α × QuadTree α × QuadTree α × QuadTree α :=
  (QuadTree.leaf (quadNW b) (d + 1) 0 0 Vec.zero [],
   QuadTree.leaf (quadNE b) (d + 1) 0 0 Vec.zero [],
   QuadTree.leaf (quadSW b) (d + 1) 0 0 Vec.zero [],
   QuadTree.leaf (quadSE b) (d + 1) 0 0 Vec.zero [])

/-- Body of QuadTree.subdivide for a leaf with the given payload: create
the four fresh children and redistribute the resident particles, giving
the kept residue and the four children. -/
def subdivideParts (ins : QuadTree α → ParticleT α → QuadTree α × Bool)
    (b : BoundsT α) (d : Nat) (ps : List (ParticleT α)) :
    List (ParticleT α) × (QuadTree α × QuadTree α × QuadTree α × QuadTree α) :=
  redistribute ins ps (freshChildren b d)

/-- Insertion into the quadtree, modelling QuadTree.insert.  The fuel
argument bounds the recursion depth; the source recursion deepens by one
tree level per call and is bounded by MAX_DEPTH, so any fuel of at least
MAX_DEPTH + 1 - depth reproduces the source behaviour, and fuel
exhaustion (never reached from a well-formed root) reports failure. -/
def insert : Nat → QuadTree α → ParticleT α → QuadTree α × Bool
  | 0 => fun t _ => (t, false)
  | fuel + 1 => fun t p =>
    if t.bounds.contains p.position then
      match t with
      | .leaf b d tm ts cm ps =>
        if ps.length < MAX_CAPACITY ∨ d = MAX_DEPTH then
          (.leaf b d tm ts cm (ps ++ [p]), true)
        else
          let parts := subdivideParts (fun t' p' => insert fuel t' p') b d ps
          match parts with
          | (kept, (c0, c1, c2, c3)) =>
            let r := insertFour (fun t' p' => insert fuel t' p') c0 c1 c2 c3 p
            match r with
            | ((c0', c1', c2', c3'), ok) => (.node b d tm ts cm kept c0' c1' c2' c3', ok)
      | .node b d tm ts cm ps c0 c1 c2 c3 =>
        if d = MAX_DEPTH then
          (.node b d tm ts cm (ps ++ [p]) c0 c1 c2 c3, true)
        else
          let r := insertFour (fun t' p' => insert fuel t' p') c0 c1 c2 c3 p
          match r with
          | ((c0', c1', c2', c3'), ok) => (.node b d tm ts cm ps c0' c1' c2' c3', ok)
    else (t, false)

/-- Standalone view of QuadTree.subdivide: on an undivided leaf, create
the children and redistribute, keeping the parent payload fields; on a
divided node it is the identity (the source only calls it undivided). -/
def QuadTree.subdivide (fuel : Nat) : QuadTree α → QuadTree α
  | .leaf b d tm ts cm ps =>
    match subdivideParts (fun t' p' => insert fuel t' p') b d ps with
    | (kept, (c0, c1, c2, c3)) => .node b d tm ts cm kept c0 c1 c2 c3
  | t => t

/-- Repeated insertion of a list of particles from the root, as the
driver does at startup and after each maintenance pass. -/
def insertList (fuel : Nat) (t : QuadTree α) (ps : List (ParticleT α)) : QuadTree α :=
  ps.foldl (fun acc p => (insert fuel acc p).1) t

/-- Leaf filtering step of QuadTree.query: keep the resident particles
whose position lies in the query box, in residence order. -/
def filterContains (qb : BoundsT α) : List (ParticleT α) → List (ParticleT α)
  | [] => []
  | p :: rest =>
    if qb.contains p.position then p :: filterContains qb rest else filterContains qb rest

/-- Range query, modelling QuadTree.query: nodes whose bounds do not
intersect the query box contribute nothing, divided nodes recurse into
the four children in order, and leaves append their contained residents
to the accumulator (the source appends to the out-vector). -/
def QuadTree.query (qb : BoundsT α) : QuadTree α → List (ParticleT α) → List (ParticleT α)
  | t, acc =>
    if t.bounds.intersects qb then
      match t with
      | .node _ _ _ _ _ _ c0 c1 c2 c3 =>
        c3.query qb (c2.query qb (c1.query qb (c0.query qb acc)))
      | .leaf _ _ _ _ _ ps => acc ++ filterContains qb ps
    else acc

/-- Capacity invariant of the spec: every leaf holds at most
MAX_CAPACITY particles unless its depth equals MAX_DEPTH. -/
def capInvB : QuadTree α → Bool
  | .leaf _ d _ _ _ ps => decide (ps.length ≤ MAX_CAPACITY) || decide (d = MAX_DEPTH)
  | .node _ _ _ _ _ _ c0 c1 c2 c3 => capInvB c0 && capInvB c1 && capInvB c2 && capInvB c3

/-- Gravitational constant of global.h (GRAV_G = 1 in simulation units). -/
def GRAV_G : ℝ := 1

/-- Pairwise acceleration and jerk with radius-sum softening, modelling
forceAndJerk of barneshut.cpp; the first component is the acceleration
contribution and the second the jerk contribution for the target. -/
noncomputable def forceAndJerk (p1 p2 : ParticleT ℝ) : Vec ℝ × Vec ℝ :=
  let rij := p1.position - p2.position
  let vij := p1.velocity - p2.velocity
  let r2 := rij.dot rij
  let r := Real.sqrt r2
  let r_soft := max r (p1.radius + p2.radius)
  let r_soft2 := r_soft * r_soft
  let r_soft3 := r_soft2 * r_soft
  let acc_mag := -GRAV_G * p2.mass / r_soft3
  let rv_dot := rij.dot vij
  let jerk_mag := -GRAV_G * p2.mass / r_soft3
  (rij * acc_mag, vij * jerk_mag - rij * (3 * jerk_mag * rv_dot / r_soft2))

/-- Direct-summation loop at a leaf of the Barnes-Hut walk: every
resident with a different id contributes its exact pair force and jerk,
accumulated into the target fields in residence order. -/
noncomputable def directSum (p : ParticleT ℝ) : List (ParticleT ℝ) → ParticleT ℝ
  | [] => p
  | q :: rest =>
    if p.id ≠ q.id then
      let c := forceAndJerk p q
      directSum
        { p with acceleration := p.acceleration + c.1, jerk := p.jerk + c.2 } rest
    else directSum p rest

/-- Barnes-Hut tree walk with jerk, modelling BarnesHutForceAndJerk of
barneshut.cpp: accept a node as a point mass when its width is below
dist times theta times the node thetaScale (with dist floored at twice
the target radius), otherwise recurse into the children of a divided
node or direct-sum at a leaf.  The far-field jerk uses only the target
velocity, as in the source. -/
noncomputable def BarnesHutForceAndJerk (p : ParticleT ℝ) (t : QuadTree ℝ) (θ : ℝ) :
    ParticleT ℝ :=
  let diff := p.position - t.com
  let dist := max diff.norm (2 * p.radius)
  let s := t.bounds.width
  let dist_eff := dist * θ * t.thetaScale
  if s < dist_eff then
    let r2 := dist * dist
    let r3 := r2 * dist
    let acc_mag := -GRAV_G * t.totalMass / r3
    let rv_dot := diff.dot p.velocity
    { p with acceleration := p.acceleration + diff * acc_mag,
             jerk := p.jerk - diff * (3 * acc_mag * rv_dot / r2) }
  else
    match t with
    | .node _ _ _ _ _ _ c0 c1 c2 c3 =>
      BarnesHutForceAndJerk
        (BarnesHutForceAndJerk (BarnesHutForceAndJerk (BarnesHutForceAndJerk p c0 θ) c1 θ)
          c2 θ) c3 θ
    | .leaf _ _ _ _ _ ps => directSum p ps

/-- Per-particle body of getAcceleration in barneshut.cpp: zero the
acceleration (only) and then run the acceleration-and-jerk walk with
theta = 0.05. -/
noncomputable def getAccelerationP (tree : QuadTree ℝ) (p : ParticleT ℝ) : ParticleT ℝ :=
  BarnesHutForceAndJerk { p with acceleration := Vec.zero } tree 0.05

/-- Evaluator entry point used by Yoshida and RK2, modelling
getAcceleration of barneshut.cpp applied over the particle list. -/
noncomputable def getAcceleration (store : List (ParticleT ℝ)) (tree : QuadTree ℝ) :
    List (ParticleT ℝ) :=
  store.map (getAccelerationP tree)

/-- Per-particle body of getAccelerationAndJerk in hermite.cpp: zero
both the acceleration and the jerk and then run the walk with
theta = 0.05. -/
noncomputable def getAccelerationAndJerkP (tree : QuadTree ℝ) (p : ParticleT ℝ) :
    ParticleT ℝ :=
  BarnesHutForceAndJerk { p with acceleration := Vec.zero, jerk := Vec.zero } tree 0.05

/-- Evaluator entry point used by Hermite, modelling
getAccelerationAndJerk of hermite.cpp applied over the particle list. -/
noncomputable def getAccelerationAndJerk (store : List (ParticleT ℝ)) (tree : QuadTree ℝ) :
    List (ParticleT ℝ) :=
  store.map (getAccelerationAndJerkP tree)

/-- Predictor stage of hermiteStep: fourth-order Taylor prediction of
position and velocity into the scratch fields. -/
noncomputable def hermitePredict (dt : ℝ) (p : ParticleT ℝ) : ParticleT ℝ :=
  { p with
    position_pred := p.position + p.velocity * dt + p.acceleration * (0.5 * dt * dt)
      + p.jerk * (dt * dt * dt / 6),
    velocity_pred := p.velocity + p.acceleration * dt + p.jerk * (0.5 * dt * dt) }

/-- Field swap of hermiteStep: exchange position with position_pred and
velocity with velocity_pred, modelling the std::swap pair. -/
def swapPred (p : ParticleT α) : ParticleT α :=
  { p with position := p.position_pred, position_pred := p.position,
           velocity := p.velocity_pred, velocity_pred := p.velocity }

/-- Corrector stage of hermiteStep for one particle, given the
snapshotted old acceleration and jerk: swap back, then apply the
fourth-order corrector to velocity and position. -/
noncomputable def hermiteCorrect (dt : ℝ) (p : ParticleT ℝ) (old : Vec ℝ × Vec ℝ) :
    ParticleT ℝ :=
  let a0 := old.1
  let a1 := p.acceleration
  let jerk0 := old.2
  let jerk1 := p.jerk
  let p' := swapPred p
  let v_old := p'.velocity
  let vnew := v_old + (a0 + a1) * (0.5 * dt) + (jerk0 - jerk1) * (dt * dt / 12)
  { p' with velocity := vnew,
            position := p'.position + (v_old + vnew) * (0.5 * dt)
              + (a0 - a1) * (dt * dt / 12) }

/-- One Hermite step, modelling hermiteStep of hermite.cpp: predict,
swap in the predicted state, snapshot the old acceleration and jerk,
evaluate forces and jerks at the predicted state, then correct. -/
noncomputable def hermiteStep (store : List (ParticleT ℝ)) (tree : QuadTree ℝ) (dt : ℝ) :
    List (ParticleT ℝ) :=
  let s1 := store.map (hermitePredict dt)
  let s2 := s1.map swapPred
  let olds := s2.map (fun p => (p.acceleration, p.jerk))
  let s3 := getAccelerationAndJerk s2 tree
  List.zipWith (hermiteCorrect dt) s3 olds

/-- Drift stage of yoshida.cpp: advance every position by its velocity
times the substep. -/
noncomputable def drift (store : List (ParticleT ℝ)) (dt : ℝ) : List (ParticleT ℝ) :=
  store.map fun p => { p with position := p.position + p.velocity * dt }

/-- Kick stage of yoshida.cpp: advance every velocity by its
acceleration times the substep. -/
noncomputable def kick (store : List (ParticleT ℝ)) (dt : ℝ) : List (ParticleT ℝ) :=
  store.map fun p => { p with velocity := p.velocity + p.acceleration * dt }

/-- Cube root of two, the pow(2.0, 1.0/3.0) of yoshida.h. -/
noncomputable def CBRT2 : ℝ := (2 : ℝ) ^ ((1 : ℝ) / 3)

/-- Yoshida weight w0 of yoshida.h. -/
noncomputable def w0 : ℝ := -CBRT2 / (2 - CBRT2)

/-- Yoshida weight w1 of yoshida.h. -/
noncomputable def w1 : ℝ := 1 / (2 - CBRT2)

/-- Yoshida drift coefficient c1 of yoshida.h. -/
noncomputable def c1 : ℝ := w1 / 2

/-- Yoshida drift coefficient c2 of yoshida.h. -/
noncomputable def c2 : ℝ := (w0 + w1) / 2

/-- Yoshida drift coefficient c3 of yoshida.h (defined as c2). -/
noncomputable def c3 : ℝ := c2

/-- Yoshida drift coefficient c4 of yoshida.h (defined as c1). -/
noncomputable def c4 : ℝ := c1

/-- Yoshida kick coefficient d1 of yoshida.h. -/
noncomputable def d1 : ℝ := w1

/-- Yoshida kick coefficient d2 of yoshida.h. -/
noncomputable def d2 : ℝ := w0

/-- Yoshida kick coefficient d3 of yoshida.h. -/
noncomputable def d3 : ℝ := w1

/-- One Yoshida step, modelling yoshidaStep of yoshida.cpp: three
drift-eval-kick stages followed by a final drift. -/
noncomputable def yoshidaStep (store : List (ParticleT ℝ)) (tree : QuadTree ℝ) (dt : ℝ) :
    List (ParticleT ℝ) :=
  let s1 := drift store (c1 * dt)
  let s2 := getAcceleration s1 tree
  let s3 := kick s2 (d1 * dt)
  let s4 := drift s3 (c2 * dt)
  let s5 := getAcceleration s4 tree
  let s6 := kick s5 (d2 * dt)
  let s7 := drift s6 (c3 * dt)
  let s8 := getAcceleration s7 tree
  let s9 := kick s8 (d3 * dt)
  drift s9 (c4 * dt)

/-- Composition written out from the specification text: with
w0 = -2^(1/3)/(2 - 2^(1/3)) and w1 = 1/(2 - 2^(1/3)), form the arrays
c = [w1/2, (w0+w1)/2, (w0+w1)/2, w1/2] and d = [w1, w0, w1], and run
drift(c1 dt); eval; kick(d1 dt); drift(c2 dt); eval; kick(d2 dt);
drift(c3 dt); eval; kick(d3 dt); drift(c4 dt).  This is the second,
spec-side definition against which yoshidaStep is compared. -/
noncomputable def yoshidaSpecComposition (store : List (ParticleT ℝ)) (tree : QuadTree ℝ)
    (dt : ℝ) : List (ParticleT ℝ) :=
  let sw0 : ℝ := -(2 : ℝ) ^ ((1 : ℝ) / 3) / (2 - (2 : ℝ) ^ ((1 : ℝ) / 3))
  let sw1 : ℝ := 1 / (2 - (2 : ℝ) ^ ((1 : ℝ) / 3))
  let cs : List ℝ := [sw1 / 2, (sw0 + sw1) / 2, (sw0 + sw1) / 2, sw1 / 2]
  let ds : List ℝ := [sw1, sw0, sw1]
  let s1 := drift store (cs.getD 0 0 * dt)
  let s2 := kick (getAcceleration s1 tree) (ds.getD 0 0 * dt)
  let s3 := drift s2 (cs.getD 1 0 * dt)
  let s4 := kick (getAcceleration s3 tree) (ds.getD 1 0 * dt)
  let s5 := drift s4 (cs.getD 2 0 * dt)
  let s6 := kick (getAcceleration s5 tree) (ds.getD 2 0 * dt)
  drift s6 (cs.getD 3 0 * dt)

/-- Result record of predictCollision, modelling struct CollisionInfo. -/
structure CollisionInfo where
  willCollide : Bool
  collisionTime : ℝ
  minDistance : ℝ

/-- Relative gravitational acceleration of a pair, modelling
calcMutualAcceleration of interactions.cpp. -/
noncomputable def calcMutualAcceleration (p1 p2 : ParticleT ℝ) : Vec ℝ :=
  let diff := p1.position - p2.position
  let dist := max (diff.norm) (p1.radius + p2.radius)
  let invDistCubed := 1 / (dist * dist * dist)
  let scale := -GRAV_G * (p1.mass + p2.mass) * invDistCubed
  diff * scale

/-- Loop state of the sampling loops in predictCollision: running
minimum distance, its time, whether a collision sample was found, and
the collision time. -/
structure SampleState where
  minDist : ℝ
  minDistTime : ℝ
  found : Bool
  collisionTime : ℝ

/-- One iteration of the main sampling loop of predictCollision at
sample time t: update the running minimum, then record the first sample
whose distance falls below the collision radius. -/
noncomputable def sampleStep (st : ℝ → ℝ) (R : ℝ) (s : SampleState) (t : ℝ) : SampleState :=
  let dAtT := st t
  let s1 := if dAtT < s.minDist then { s with minDist := dAtT, minDistTime := t } else s
  if dAtT < R ∧ s1.found = false then { s1 with found := true, collisionTime := t } else s1

/-- One iteration of the refinement loop of predictCollision with
offset index i: the probe time is the running minimum time plus i times
the refinement spacing, clamped to the step interval; the minimum is
updated and the collision time lowered when the probe hits. -/
noncomputable def refineStep (st : ℝ → ℝ) (R dt refineDt : ℝ) (s : SampleState) (i : Int) :
    SampleState :=
  let t := max 0 (min dt (s.minDistTime + i * refineDt))
  let dAtT := st t
  let s1 := if dAtT < s.minDist then { s with minDist := dAtT, minDistTime := t } else s
  if dAtT < R ∧ t < s1.collisionTime then { s1 with found := true, collisionTime := t } else s1

/-- The eleven sample times of the main loop of predictCollision:
dt times i over numSamples for i = 0..10 with numSamples = 10. -/
noncomputable def sampleTimes (dt : ℝ) : List ℝ :=
  (List.range 11).map fun i : Nat => dt * (i : ℝ) / 10

/-- Sampling section of predictCollision after the early exit, with
the relative-trajectory distance function, the collision radius and the
current distance as parameters: the main loop folds over the eleven
sample times; when the discrete minimum lies strictly inside the
interval, the refinement loop folds over the five offsets at spacing
dt over (2 numSamples); the report carries the found flag, the
collision time (dt when no collision was found) and the minimum
distance. -/
noncomputable def predictCore (st : ℝ → ℝ) (R cd dt : ℝ) : CollisionInfo :=
  let s0 : SampleState := ⟨cd, 0, false, dt⟩
  let s1 := (sampleTimes dt).foldl (sampleStep st R) s0
  let s2 :=
    if 0 < s1.minDistTime ∧ s1.minDistTime < dt then
      ([-2, -1, 0, 1, 2] : List Int).foldl (refineStep st R dt (dt / (2 * 10))) s1
    else s1
  ⟨s2.found, if s2.found then s2.collisionTime else dt, s2.minDist⟩

/-- Continuous collision prediction, modelling predictCollision of
interactions.cpp: an early exit when the current separation is below
1.1 times the collision radius, otherwise the sampling core over the
quadratic relative trajectory. -/
noncomputable def predictCollision (p1 p2 : ParticleT ℝ) (dt : ℝ) : CollisionInfo :=
  let relPos := p1.position - p2.position
  let relVel := p1.velocity - p2.velocity
  let relAcc := calcMutualAcceleration p1 p2
  let collisionRadius := p1.radius + p2.radius
  let currentDist := relPos.norm
  if currentDist < collisionRadius * 1.1 then
    ⟨true, 0, currentDist⟩
  else
    predictCore (fun t : ℝ => (relPos + relVel * t + relAcc * (0.5 * t * t)).norm)
      collisionRadius currentDist dt

/-- In-place merge of a colliding pair, modelling the merge block of
checkCollisions: the survivor takes the momentum-conserving velocity,
the cube-root volume-heuristic radius, and the summed mass. -/
noncomputable def mergeInto (p q : ParticleT ℝ) : ParticleT ℝ :=
  let total_mass := p.mass + q.mass
  { p with
    velocity := (q.velocity * q.mass + p.velocity * p.mass) / total_mass,
    radius := (total_mass / p.mass) ^ ((1 : ℝ) / 3) * p.radius,
    mass := total_mass }

/-- Ghost record of one merge performed by the collision sweep: the
pre-merge survivor and victim states and the post-merge survivor. -/
structure MergeEvent where
  center : ParticleT ℝ
  victim : ParticleT ℝ
  merged : ParticleT ℝ

/-- Resolution of a particle pointer against the current particle list,
keyed by the stable id. -/
def findById (store : List (ParticleT α)) (pid : Int) : Option (ParticleT α) :=
  store.find? fun r => r.id = pid

/-- Write-back of a mutated particle into the current particle list,
keyed by the stable id; this models assignment through the shared
pointer held by the list. -/
def setById (store : List (ParticleT α)) (q : ParticleT α) : List (ParticleT α) :=
  store.map fun r => if r.id = q.id then q else r

/-- Neighbour loop of checkCollisions for one center particle: each
query candidate is resolved to its current state; candidates with the
same or lower id, or already marked for deletion, are skipped; on the
first predicted collision the center merges the victim, the victim is
marked for deletion, and the loop breaks.  The second component is the
ghost list of merge events. -/
noncomputable def neighbourLoop (dt : ℝ) (store : List (ParticleT ℝ))
    (center : ParticleT ℝ) :
    List (ParticleT ℝ) → List (ParticleT ℝ) × List MergeEvent
  | [] => (store, [])
  | c :: rest =>
    match findById store c.id with
    | none => neighbourLoop dt store center rest
    | some q =>
      if center.id = q.id ∨ q.id ≤ center.id ∨ q.markForDeletion = true then
        neighbourLoop dt store center rest
      else if (predictCollision center q dt).willCollide then
        let merged := mergeInto center q
        let marked := { q with markForDeletion := true }
        (setById (setById store merged) marked, [⟨center, q, merged⟩])
      else neighbourLoop dt store center rest

/-- One iteration of the outer loop of checkCollisions: take the
current state of the particle at slot i, build the velocity-aware query
box of half-width 2 radius + speed dt, query the tree, and run the
neighbour loop. -/
noncomputable def centerPass (tree : QuadTree ℝ) (dt : ℝ) (store : List (ParticleT ℝ))
    (i : Nat) : List (ParticleT ℝ) × List MergeEvent :=
  match store[i]? with
  | none => (store, [])
  | some center =>
    let range := 2 * center.radius + center.velocity.norm * dt
    let qb := setBounds (center.position.x - range) (center.position.y - range)
      (range * 2) (range * 2)
    let cands := tree.query qb []
    neighbourLoop dt store center cands

/-- Sequential execution of the collision sweep from slot i for k more
slots, threading the particle list and concatenating the merge events. -/
noncomputable def sweepAux (tree : QuadTree ℝ) (dt : ℝ) :
    Nat → List (ParticleT ℝ) → Nat → List (ParticleT ℝ) × List MergeEvent
  | 0, store, _ => (store, [])
  | k + 1, store, i =>
    let r1 := centerPass tree dt store i
    let r2 := sweepAux tree dt k r1.1 (i + 1)
    (r2.1, r1.2 ++ r2.2)

/-- Compaction after the sweep: remove every particle marked for
deletion, keeping the survivors in order (the erase/remove_if idiom). -/
def removeMarked : List (ParticleT α) → List (ParticleT α)
  | [] => []
  | p :: rest => if p.markForDeletion then removeMarked rest else p :: removeMarked rest

/-- Collision pass, modelling checkCollisions of interactions.cpp in
its sequential execution order: sweep every slot of the particle list,
then erase the particles marked for deletion.  The second component is
the ghost list of merge events, in sweep order. -/
noncomputable def checkCollisions (store : List (ParticleT ℝ)) (tree : QuadTree ℝ)
    (dt : ℝ) : List (ParticleT ℝ) × List MergeEvent :=
  let r := sweepAux tree dt store.length store 0
  (removeMarked r.1, r.2)

/-- Total mass of a particle list. -/
def massSum (store : List (ParticleT ℝ)) : ℝ := (store.map fun p => p.mass).sum

/-- Mass and weighted-position accumulation over the particles inside
the tree bounds, modelling the reduction loop of updateParticles: the
triple is (total mass, sum of x mass, sum of y mass). -/
noncomputable def comSums (tb : BoundsT ℝ) : List (ParticleT ℝ) → ℝ × ℝ × ℝ
  | [] => (0, 0, 0)
  | p :: rest =>
    let s := comSums tb rest
    if tb.contains p.position then
      (s.1 + p.mass, s.2.1 + p.position.x * p.mass, s.2.2 + p.position.y * p.mass)
    else s

/-- Recentering phase of updateParticles (interactions.cpp lines 23-40):
accumulate the mass-weighted centroid over particles inside the tree
bounds and subtract it from every position.  The source divides by the
total mass unconditionally; a zero total therefore produces NaN
coordinates through 0/0 and poisons every position, which the exact
model reports as failure (none). -/
noncomputable def recenterPhase (store : List (ParticleT ℝ)) (tb : BoundsT ℝ) :
    Option (List (ParticleT ℝ)) :=
  let s := comSums tb store
  if s.1 = 0 then none
  else
    let new_com : Vec ℝ := ⟨s.2.1 / s.1, s.2.2 / s.1⟩
    some (store.map fun p => { p with position := p.position - new_com })

/-- Root bounds used by main.cpp: a square of half-width 250. -/
noncomputable def rootBounds : BoundsT ℝ := setBounds (-250) (-250) 500 500

/-- First particle of the concrete collision scenario. -/
noncomputable def cp1 : ParticleT ℝ := testP 1 0 0 0 0 1 1

/-- Second particle of the concrete collision scenario. -/
noncomputable def cp2 : ParticleT ℝ := testP 2 1 0 0 0 1 1

/-- Third particle of the concrete collision scenario. -/
noncomputable def cp3 : ParticleT ℝ := testP 3 2 0 0 0 1 1

/-- Concrete particle list with three mutually close unit masses. -/
noncomputable def store3 : List (ParticleT ℝ) := [cp1, cp2, cp3]

/-- Concrete tree holding the three scenario particles in one leaf. -/
noncomputable def tree3 : QuadTree ℝ :=
  QuadTree.leaf rootBounds 1 0 0 Vec.zero store3

/-- Concrete empty leaf tree with zero aggregates, over which the
Barnes-Hut walk contributes nothing. -/
noncomputable def treeEmpty : QuadTree ℝ :=
  QuadTree.leaf (setBounds 0 0 1 1) 1 0 0 Vec.zero []

/-- Concrete particle with a nonzero stored jerk, used to exhibit the
jerk carry-over of getAcceleration. -/
noncomputable def pJerk : ParticleT ℝ :=
  { testP 7 0 0 0 0 1 1 with jerk := ⟨1, 1⟩ }

/-- Concrete particle with zero stored acceleration and jerk, matching
the evaluator output on the empty tree, used for the Hermite restart
witness. -/
noncomputable def pHermite : ParticleT ℝ := testP 4 (1 / 2) (1 / 2) 0 0 1 1

/-- Concrete particle lying outside the root bounds, used as the
failing input of the recentering phase. -/
noncomputable def pOutside : ParticleT ℝ := testP 9 300 0 0 0 1 1

/-- Concrete rational bounds box for the quadtree witnesses. -/
def bQ : BoundsT ℚ := setBounds 0 0 4 4

/-- Concrete rational particle inside bQ for the quadtree witnesses. -/
def pQ : ParticleT ℚ := testP 1 1 1 0 0 1 1

/-- Concrete rational empty leaf tree for the quadtree witnesses. -/
def tQ : QuadTree ℚ := QuadTree.leaf bQ 1 0 0 Vec.zero []

/-- Total pair contribution of a leaf resident list to a target with
the given kinematic fields: the pure-delta view of the direct-sum loop,
used to factor the Barnes-Hut walk in the proofs. -/
noncomputable def sumFJ (pos vel : Vec ℝ) (radius : ℝ) (pid : Int) :
    List (ParticleT ℝ) → Vec ℝ × Vec ℝ
  | [] => (Vec.zero, Vec.zero)
  | q :: rest =>
    let r := sumFJ pos vel radius pid rest
    if pid ≠ q.id then
      let c := forceAndJerk
        ⟨pos, vel, Vec.zero, Vec.zero, Vec.zero, Vec.zero, pid, 0, radius, false, false⟩ q
      (c.1 + r.1, c.2 + r.2)
    else r

/-- Total acceleration and jerk contribution of a Barnes-Hut walk to a
target with the given kinematic fields: the pure-delta view of
BarnesHutForceAndJerk, used to factor the walk in the proofs. -/
noncomputable def walkAJ (θ : ℝ) (pos vel : Vec ℝ) (radius : ℝ) (pid : Int)
    (t : QuadTree ℝ) : Vec ℝ × Vec ℝ :=
  let diff := pos - t.com
  let dist := max diff.norm (2 * radius)
  let s := t.bounds.width
  let dist_eff := dist * θ * t.thetaScale
  if s < dist_eff then
    let r2 := dist * dist
    let r3 := r2 * dist
    let acc_mag := -GRAV_G * t.totalMass / r3
    let rv_dot := diff.dot vel
    (diff * acc_mag, Vec.zero - diff * (3 * acc_mag * rv_dot / r2))
  else
    match t with
    | .node _ _ _ _ _ _ c0 c1 c2 c3 =>
      let r0 := walkAJ θ pos vel radius pid c0
      let r1 := walkAJ θ pos vel radius pid c1
      let r2 := walkAJ θ pos vel radius pid c2
      let r3 := walkAJ θ pos vel radius pid c3
      (r0.1 + r1.1 + r2.1 + r3.1, r0.2 + r1.2 + r2.2 + r3.2)
    | .leaf _ _ _ _ _ ps => sumFJ pos vel radius pid ps

@[simp]
theorem Vec.add_def (a b : Vec α) : a + b = ⟨a.x + b.x, a.y + b.y⟩ := rfl

@[simp]
theorem Vec.sub_def (a b : Vec α) : a - b = ⟨a.x - b.x, a.y - b.y⟩ := rfl

@[simp]
theorem Vec.smul_def (a : Vec α) (c : α) : a * c = ⟨a.x * c, a.y * c⟩ := rfl

@[simp]
theorem Vec.sdiv_def (a : Vec α) (c : α) : a / c = ⟨a.x / c, a.y / c⟩ := rfl

theorem Vec.norm_mk (a b : ℝ) : Vec.norm ⟨a, b⟩ = Real.sqrt (a * a + b * b) := rfl

theorem Vec.norm_x_axis (a : ℝ) : Vec.norm ⟨a, 0⟩ = |a| := by
  rw [Vec.norm_mk]
  simpa using Real.sqrt_mul_self_eq_abs a

theorem Vec.norm_zero_vec : Vec.norm (⟨0, 0⟩ : Vec ℝ) = 0 := by
  simpa using Vec.norm_x_axis 0

theorem Vec.add_assoc_vec (a b c : Vec α) : a + b + c = a + (b + c) := by
  simp only [Vec.add_def, Vec.mk.injEq]
  constructor <;> ring

theorem Vec.zero_add_vec (a : Vec α) : Vec.zero + a = a := by
  cases a
  simp [Vec.zero]

theorem Vec.add_zero_vec (a : Vec α) : a + Vec.zero = a := by
  cases a
  simp [Vec.zero]

/-- The direct-sum loop only accumulates: it equals the target with the
pure pair contributions added onto acceleration and jerk. -/
theorem directSum_eq_sumFJ (qs : List (ParticleT ℝ)) :
    ∀ p : ParticleT ℝ,
      directSum p qs =
        { p with
          acceleration := p.acceleration + (sumFJ p.position p.velocity p.radius p.id qs).1,
          jerk := p.jerk + (sumFJ p.position p.velocity p.radius p.id qs).2 } := by
  induction qs with
  | nil =>
    intro p
    rw [directSum, sumFJ]
    ext <;> simp [Vec.zero]
  | cons q rest ih =>
    intro p
    by_cases hid : p.id ≠ q.id
    · rw [directSum, if_pos hid, ih]
      rw [sumFJ, if_pos hid]
      ext <;> simp [forceAndJerk, Vec.dot, Vec.zero] <;> ring
    · rw [directSum, if_neg hid, ih]
      rw [sumFJ, if_neg hid]

/-- The Barnes-Hut walk only accumulates: it equals the target with the
pure walk contributions added onto acceleration and jerk, all other
fields unchanged. -/
theorem BarnesHut_eq_walkAJ (t : QuadTree ℝ) (θ : ℝ) :
    ∀ p : ParticleT ℝ,
      BarnesHutForceAndJerk p t θ =
        { p with
          acceleration := p.acceleration + (walkAJ θ p.position p.velocity p.radius p.id t).1,
          jerk := p.jerk + (walkAJ θ p.position p.velocity p.radius p.id t).2 } := by
  induction t with
  | leaf b d tm ts cm ps =>
    intro p
    rw [BarnesHutForceAndJerk, walkAJ]
    simp only [QuadTree.bounds, QuadTree.com, QuadTree.thetaScale, QuadTree.totalMass]
    split_ifs with hIf
    · ext <;> simp [Vec.dot, Vec.zero] <;> ring
    · exact directSum_eq_sumFJ ps p
  | node b d tm ts cm ps c0 c1 c2 c3 ih0 ih1 ih2 ih3 =>
    intro p
    rw [BarnesHutForceAndJerk, walkAJ]
    simp only [QuadTree.bounds, QuadTree.com, QuadTree.thetaScale, QuadTree.totalMass]
    split_ifs with hIf
    · ext <;> simp [Vec.dot, Vec.zero] <;> ring
    · rw [ih0 p, ih1, ih2, ih3]
      ext <;> simp <;> ring

/-- The survivor of a merge carries the summed mass. -/
theorem mergeInto_mass (p q : ParticleT ℝ) : (mergeInto p q).mass = p.mass + q.mass := rfl

/-- The survivor of a merge carries the mass-weighted mean velocity. -/
theorem mergeInto_velocity (p q : ParticleT ℝ) :
    (mergeInto p q).velocity =
      (q.velocity * q.mass + p.velocity * p.mass) / (p.mass + q.mass) := rfl

/-- The merge leaves id, position and deletion flag of the survivor. -/
theorem mergeInto_id (p q : ParticleT ℝ) : (mergeInto p q).id = p.id := rfl

/-- Momentum algebra of the merge: when the summed mass is nonzero the
survivor momentum equals the pair momentum exactly. -/
theorem mergeInto_momentum (p q : ParticleT ℝ) (h : p.mass + q.mass ≠ 0) :
    (mergeInto p q).velocity * (mergeInto p q).mass =
      p.velocity * p.mass + q.velocity * q.mass := by
  rw [mergeInto_velocity, mergeInto_mass]
  simp only [Vec.smul_def, Vec.sdiv_def, Vec.add_def, Vec.mk.injEq]
  constructor <;> (field_simp; ring)

/-- Every event emitted by the neighbour loop has the fixed center as
survivor, records the post-state produced by mergeInto, has a victim of
strictly larger id that was not yet marked for deletion, and the list
has at most one event. -/
theorem neighbourLoop_events (dt : ℝ) (store : List (ParticleT ℝ)) (center : ParticleT ℝ)
    (cands : List (ParticleT ℝ)) :
    ∀ ev ∈ (neighbourLoop dt store center cands).2,
      ev.center = center ∧ ev.merged = mergeInto ev.center ev.victim ∧
      ev.center.id < ev.victim.id ∧ ev.victim.markForDeletion = false := by
  induction cands generalizing store with
  | nil => simp [neighbourLoop]
  | cons c rest ih =>
    intro ev hev
    simp only [neighbourLoop] at hev
    rcases hfind : findById store c.id with _ | q
    · rw [hfind] at hev
      exact ih store ev hev
    · simp only [hfind] at hev
      by_cases hskip : center.id = q.id ∨ q.id ≤ center.id ∨ q.markForDeletion = true
      · rw [if_pos hskip] at hev
        exact ih store ev hev
      · rw [if_neg hskip] at hev
        push_neg at hskip
        obtain ⟨-, hlt, hmark⟩ := hskip
        by_cases hcoll : (predictCollision center q dt).willCollide
        · rw [if_pos hcoll] at hev
          simp only [List.mem_singleton] at hev
          subst hev
          refine ⟨rfl, rfl, hlt, ?_⟩
          simpa using hmark
        · rw [if_neg hcoll] at hev
          exact ih _ ev hev

/-- Length of a neighbour-loop event list is at most one: the loop
breaks after the first merge. -/
theorem neighbourLoop_events_len (dt : ℝ) (store : List (ParticleT ℝ))
    (center : ParticleT ℝ) (cands : List (ParticleT ℝ)) :
    (neighbourLoop dt store center cands).2.length ≤ 1 := by
  induction cands generalizing store with
  | nil => simp [neighbourLoop]
  | cons c rest ih =>
    simp only [neighbourLoop]
    rcases hfind : findById store c.id with _ | q
    · exact ih store
    · simp only [hfind]
      by_cases hskip : center.id = q.id ∨ q.id ≤ center.id ∨ q.markForDeletion = true
      · rw [if_pos hskip]
        exact ih store
      · rw [if_neg hskip]
        by_cases hcoll : (predictCollision center q dt).willCollide
        · rw [if_pos hcoll]
          exact le_refl 1
        · rw [if_neg hcoll]
          exact ih store

/-- Events emitted by one center pass satisfy the per-event merge
properties. -/
theorem centerPass_events (tree : QuadTree ℝ) (dt : ℝ) (store : List (ParticleT ℝ))
    (i : Nat) :
    ∀ ev ∈ (centerPass tree dt store i).2,
      ev.merged = mergeInto ev.center ev.victim ∧
      ev.center.id < ev.victim.id ∧ ev.victim.markForDeletion = false := by
  intro ev hev
  unfold centerPass at hev
  rcases hi : store[i]? with _ | center
  · rw [hi] at hev
    simp at hev
  · simp only [hi] at hev
    have h := neighbourLoop_events dt store center _ ev hev
    exact ⟨h.2.1, h.2.2.1, h.2.2.2⟩

/-- Events emitted by the whole sweep satisfy the per-event merge
properties. -/
theorem sweepAux_events (tree : QuadTree ℝ) (dt : ℝ) (k : Nat)
    (store : List (ParticleT ℝ)) (i : Nat) :
    ∀ ev ∈ (sweepAux tree dt k store i).2,
      ev.merged = mergeInto ev.center ev.victim ∧
      ev.center.id < ev.victim.id ∧ ev.victim.markForDeletion = false := by
  induction k generalizing store i with
  | zero => simp [sweepAux]
  | succ k ih =>
    intro ev hev
    simp only [sweepAux, List.mem_append] at hev
    rcases hev with hev | hev
    · exact centerPass_events tree dt store i ev hev
    · exact ih _ _ ev hev

/-- C1.  For every merge performed by checkCollisions on a pair, the
surviving particle ends with the summed mass and the mass-weighted mean
velocity, so when the summed mass is nonzero the survivor momentum
equals the pair pre-merge momentum exactly. -/
theorem checkCollisions_merge_momentum (store : List (ParticleT ℝ)) (tree : QuadTree ℝ)
    (dt : ℝ) :
    ∀ ev ∈ (checkCollisions store tree dt).2,
      ev.merged.mass = ev.center.mass + ev.victim.mass ∧
      ev.merged.velocity = (ev.victim.velocity * ev.victim.mass
        + ev.center.velocity * ev.center.mass) / (ev.center.mass + ev.victim.mass) ∧
      (ev.center.mass + ev.victim.mass ≠ 0 →
        ev.merged.velocity * ev.merged.mass =
          ev.center.velocity * ev.center.mass + ev.victim.velocity * ev.victim.mass) := by
  intro ev hev
  have h := sweepAux_events tree dt store.length store 0 ev hev
  rw [h.1]
  exact ⟨mergeInto_mass _ _, mergeInto_velocity _ _, fun hm => mergeInto_momentum _ _ hm⟩

/-- C8.  One Yoshida step is exactly the four-drift three-kick
composition with the coefficient arrays of the specification. -/
theorem yoshidaStep_eq_specComposition (store : List (ParticleT ℝ)) (tree : QuadTree ℝ)
    (dt : ℝ) :
    yoshidaStep store tree dt = yoshidaSpecComposition store tree dt := by
  simp only [yoshidaStep, yoshidaSpecComposition, c1, c2, c3, c4, d1, d2, d3, w0, w1, CBRT2,
    List.getD]
  rfl

/-- C3 (code-bug exhibit).  At a concrete input whose only particle
lies outside the tree bounds the in-bounds total mass is zero, and the
recentering phase of updateParticles still reaches the division by the
total mass: the exact model reports the poisoned run as none instead of
leaving the positions unchanged, because interactions.cpp divides by
total_mass unconditionally. -/
theorem recenterPhase_zero_mass_fails : recenterPhase [pOutside] rootBounds = none := by
  rw [recenterPhase]
  norm_num [comSums, pOutside, rootBounds, testP, setBounds, BoundsT.contains]

/-- The acceleration-and-jerk evaluator in record form: both
accumulators restart from zero and receive the pure walk contribution
at the particle kinematic state. -/
theorem getAJP_record (tree : QuadTree ℝ) (p : ParticleT ℝ) :
    getAccelerationAndJerkP tree p =
      { p with
        acceleration := Vec.zero + (walkAJ 0.05 p.position p.velocity p.radius p.id tree).1,
        jerk := Vec.zero + (walkAJ 0.05 p.position p.velocity p.radius p.id tree).2 } := by
  rw [getAccelerationAndJerkP, BarnesHut_eq_walkAJ]

/-- The acceleration-only evaluator in record form: the acceleration
restarts from zero but the jerk keeps its incoming value underneath the
walk contribution. -/
theorem getAP_record (tree : QuadTree ℝ) (p : ParticleT ℝ) :
    getAccelerationP tree p =
      { p with
        acceleration := Vec.zero + (walkAJ 0.05 p.position p.velocity p.radius p.id tree).1,
        jerk := p.jerk + (walkAJ 0.05 p.position p.velocity p.radius p.id tree).2 } := by
  rw [getAccelerationP, BarnesHut_eq_walkAJ]

/-- The Barnes-Hut walk contributes nothing over the concrete empty
leaf tree whose thetaScale aggregate is zero. -/
theorem walkAJ_treeEmpty (θ : ℝ) (pos vel : Vec ℝ) (radius : ℝ) (pid : Int) :
    walkAJ θ pos vel radius pid treeEmpty = (Vec.zero, Vec.zero) := by
  rw [walkAJ.eq_def]
  norm_num [treeEmpty, QuadTree.thetaScale, QuadTree.bounds, QuadTree.com, setBounds, sumFJ]

/-- C9 counterexample.  The claim would make the jerk stored by the
acceleration-only evaluator independent of its incoming value; on the
concrete particle pJerk over the empty tree the stored jerk after
getAcceleration still carries the old value, because getAcceleration in
barneshut.cpp zeroes only the acceleration while the walk it calls
accumulates into the jerk. -/
theorem getAcceleration_jerk_carryover :
    (getAccelerationP treeEmpty pJerk).jerk ≠
      (getAccelerationP treeEmpty { pJerk with jerk := Vec.zero }).jerk := by
  rw [getAccelerationP, getAccelerationP, BarnesHut_eq_walkAJ, BarnesHut_eq_walkAJ]
  simp only [walkAJ_treeEmpty]
  simp [pJerk, testP, Vec.zero, Vec.mk.injEq]

/-- C9 amended.  The acceleration-and-jerk evaluator zeroes both fields
before walking, so its output is independent of the incoming
acceleration and jerk; the acceleration-only evaluator zeroes only the
acceleration, and since it calls the acceleration-and-jerk walk its
stored jerk afterwards is the old jerk plus the walk contribution. -/
theorem evaluator_zeroing (tree : QuadTree ℝ) (p : ParticleT ℝ) :
    (∀ a' j' : Vec ℝ,
      getAccelerationAndJerkP tree { p with acceleration := a', jerk := j' } =
        getAccelerationAndJerkP tree p) ∧
    (∀ a' : Vec ℝ,
      getAccelerationP tree { p with acceleration := a' } = getAccelerationP tree p) ∧
    (getAccelerationP tree p).jerk = p.jerk + (getAccelerationAndJerkP tree p).jerk := by
  refine ⟨fun a' j' => rfl, fun a' => rfl, ?_⟩
  rw [getAccelerationP, getAccelerationAndJerkP, BarnesHut_eq_walkAJ, BarnesHut_eq_walkAJ]
  ext <;> simp [Vec.zero]

/-- The predictor followed by the swap acts as the identity on position
and velocity when dt is zero, moving the current state into the scratch
fields. -/
theorem swapPred_hermitePredict_zero (p : ParticleT ℝ) :
    swapPred (hermitePredict 0 p) =
      { p with position_pred := p.position, velocity_pred := p.velocity } := by
  ext <;> simp [swapPred, hermitePredict]

/-- One particle of the Hermite step at dt = 0: predict, swap,
evaluate and correct return the particle with only the scratch fields
rewritten, provided the stored acceleration and jerk already equal the
evaluator output at the current state. -/
theorem hermite_zero_pointwise (tree : QuadTree ℝ) (p : ParticleT ℝ)
    (ha : p.acceleration = (getAccelerationAndJerkP tree p).acceleration)
    (hj : p.jerk = (getAccelerationAndJerkP tree p).jerk) :
    hermiteCorrect 0 (getAccelerationAndJerkP tree (swapPred (hermitePredict 0 p)))
      ((swapPred (hermitePredict 0 p)).acceleration,
       (swapPred (hermitePredict 0 p)).jerk) =
    { p with position_pred := p.position, velocity_pred := p.velocity } := by
  rw [getAJP_record] at ha hj
  simp only at ha hj
  rw [swapPred_hermitePredict_zero, getAJP_record]
  simp only
  rw [hermiteCorrect]
  ext <;> simp [swapPred, Vec.zero, ha, hj]

/-- C7.  When the stored acceleration and jerk equal the evaluator
output at the current state, one Hermite step with dt = 0 leaves every
position, velocity, acceleration and jerk unchanged. -/
theorem hermiteStep_dt_zero_identity (store : List (ParticleT ℝ)) (tree : QuadTree ℝ)
    (hyp : ∀ p ∈ store,
      p.acceleration = (getAccelerationAndJerkP tree p).acceleration ∧
      p.jerk = (getAccelerationAndJerkP tree p).jerk) :
    List.Forall₂ (fun p' p : ParticleT ℝ =>
        p'.position = p.position ∧ p'.velocity = p.velocity ∧
        p'.acceleration = p.acceleration ∧ p'.jerk = p.jerk)
      (hermiteStep store tree 0) store := by
  have hrw : hermiteStep store tree 0 =
      store.map fun p =>
        hermiteCorrect 0 (getAccelerationAndJerkP tree (swapPred (hermitePredict 0 p)))
          ((swapPred (hermitePredict 0 p)).acceleration,
           (swapPred (hermitePredict 0 p)).jerk) := by
    rw [hermiteStep, getAccelerationAndJerk]
    simp only [List.map_map, List.zipWith_map, List.zipWith_same]
    rfl
  rw [hrw]
  clear hrw
  induction store with
  | nil => simp
  | cons p rest ih =>
    rw [List.map_cons]
    refine List.Forall₂.cons ?_ (ih fun q hq => hyp q (List.mem_cons_of_mem p hq))
    have hp := hyp p (List.mem_cons_self p rest)
    rw [hermite_zero_pointwise tree p hp.1 hp.2]
    exact ⟨rfl, rfl, rfl, rfl⟩

/-- C7 witness at a concrete one-particle store over the empty tree,
whose evaluator output is zero acceleration and zero jerk. -/
theorem hermiteStep_dt_zero_identity_witness :
    List.Forall₂ (fun p' p : ParticleT ℝ =>
        p'.position = p.position ∧ p'.velocity = p.velocity ∧
        p'.acceleration = p.acceleration ∧ p'.jerk = p.jerk)
      (hermiteStep [pHermite] treeEmpty 0) [pHermite] := by
  refine hermiteStep_dt_zero_identity [pHermite] treeEmpty ?_
  intro p hp
  simp only [List.mem_singleton] at hp
  subst hp
  rw [getAJP_record]
  constructor <;> simp [walkAJ_treeEmpty, pHermite, testP, Vec.zero]

/-- A sampling step started in the found state keeps the state found
and does not move the collision time. -/
theorem sampleStep_found_true (st : ℝ → ℝ) (R : ℝ) (s : SampleState) (t : ℝ)
    (h : s.found = true) :
    (sampleStep st R s t).found = true ∧
    (sampleStep st R s t).collisionTime = s.collisionTime := by
  simp [sampleStep, h, apply_ite]

/-- The main sampling loop started in the found state keeps the state
found and does not move the collision time. -/
theorem sampleFold_found_true (st : ℝ → ℝ) (R : ℝ) (l : List ℝ) :
    ∀ s : SampleState, s.found = true →
      (l.foldl (sampleStep st R) s).found = true ∧
      (l.foldl (sampleStep st R) s).collisionTime = s.collisionTime := by
  induction l with
  | nil => exact fun s h => ⟨h, rfl⟩
  | cons t rest ih =>
    intro s h
    rw [List.foldl_cons]
    have h1 := sampleStep_found_true st R s t h
    exact ⟨(ih _ h1.1).1, (ih _ h1.1).2.trans h1.2⟩

/-- A sampling step at a time inside the step interval keeps the
collision time inside the step interval. -/
theorem sampleStep_time_range (st : ℝ → ℝ) (R dt : ℝ) (s : SampleState) (t : ℝ)
    (h0 : 0 ≤ t) (h1 : t ≤ dt)
    (hs : 0 ≤ s.collisionTime ∧ s.collisionTime ≤ dt) :
    0 ≤ (sampleStep st R s t).collisionTime ∧
    (sampleStep st R s t).collisionTime ≤ dt := by
  simp only [sampleStep]
  split_ifs <;> simp_all

/-- The main sampling loop keeps the collision time inside the step
interval when every sample time lies inside it. -/
theorem sampleFold_time_range (st : ℝ → ℝ) (R dt : ℝ) (l : List ℝ)
    (hl : ∀ t ∈ l, 0 ≤ t ∧ t ≤ dt) :
    ∀ s : SampleState, 0 ≤ s.collisionTime ∧ s.collisionTime ≤ dt →
      0 ≤ (l.foldl (sampleStep st R) s).collisionTime ∧
      (l.foldl (sampleStep st R) s).collisionTime ≤ dt := by
  induction l with
  | nil => exact fun s hs => hs
  | cons t rest ih =>
    intro s hs
    rw [List.foldl_cons]
    exact ih (fun u hu => hl u (List.mem_cons_of_mem t hu))
      _ (sampleStep_time_range st R dt s t (hl t (List.mem_cons_self t rest)).1
        (hl t (List.mem_cons_self t rest)).2 hs)

/-- A sampling step at a time below the reference time preserves the
bound: if found then the collision time is below the reference time. -/
theorem sampleStep_below (st : ℝ → ℝ) (R : ℝ) (s : SampleState) (t tj : ℝ)
    (hle : t ≤ tj) (hq : s.found = true → s.collisionTime ≤ tj) :
    (sampleStep st R s t).found = true → (sampleStep st R s t).collisionTime ≤ tj := by
  by_cases hf : s.found = true
  · intro _
    rw [(sampleStep_found_true st R s t hf).2]
    exact hq hf
  · simp only [Bool.not_eq_true] at hf
    simp only [sampleStep]
    split_ifs with h1 h2 h2 <;> simp_all

/-- A sampling step at a hitting time below the reference time lands in
the found state with collision time below the reference time. -/
theorem sampleStep_hit (st : ℝ → ℝ) (R : ℝ) (s : SampleState) (t tj : ℝ)
    (hhit : st t < R) (hle : t ≤ tj) (hq : s.found = true → s.collisionTime ≤ tj) :
    (sampleStep st R s t).found = true ∧ (sampleStep st R s t).collisionTime ≤ tj := by
  by_cases hf : s.found = true
  · have h1 := sampleStep_found_true st R s t hf
    exact ⟨h1.1, h1.2.le.trans (hq hf)⟩
  · simp only [Bool.not_eq_true] at hf
    simp only [sampleStep]
    split_ifs with h1 h2 h2 <;> simp_all

/-- The main sampling loop over times below the reference time
preserves the bound: if found then the collision time is below the
reference time. -/
theorem sampleFold_below (st : ℝ → ℝ) (R : ℝ) (l : List ℝ) (tj : ℝ)
    (hl : ∀ t ∈ l, t ≤ tj) :
    ∀ s : SampleState, (s.found = true → s.collisionTime ≤ tj) →
      ((l.foldl (sampleStep st R) s).found = true →
        (l.foldl (sampleStep st R) s).collisionTime ≤ tj) := by
  induction l with
  | nil => exact fun s hs => hs
  | cons t rest ih =>
    intro s hs
    rw [List.foldl_cons]
    exact ih (fun u hu => hl u (List.mem_cons_of_mem t hu)) _
      (sampleStep_below st R s t tj (hl t (List.mem_cons_self t rest)) hs)

/-- A refinement step started in the found state stays found and can
only lower the collision time. -/
theorem refineStep_found (st : ℝ → ℝ) (R dt refineDt : ℝ) (s : SampleState) (i : Int)
    (h : s.found = true) :
    (refineStep st R dt refineDt s i).found = true ∧
    (refineStep st R dt refineDt s i).collisionTime ≤ s.collisionTime := by
  simp only [refineStep]
  split_ifs with h1 h2 h2
  · exact ⟨rfl, h2.2.le⟩
  · exact ⟨h, le_refl _⟩
  · exact ⟨rfl, h2.2.le⟩
  · exact ⟨h, le_refl _⟩

/-- The refinement loop started in the found state stays found and can
only lower the collision time. -/
theorem refineFold_found (st : ℝ → ℝ) (R dt refineDt : ℝ) (l : List Int) :
    ∀ s : SampleState, s.found = true →
      ((l.foldl (refineStep st R dt refineDt) s).found = true ∧
       (l.foldl (refineStep st R dt refineDt) s).collisionTime ≤ s.collisionTime) := by
  induction l with
  | nil => exact fun s h => ⟨h, le_refl _⟩
  | cons i rest ih =>
    intro s h
    rw [List.foldl_cons]
    have h1 := refineStep_found st R dt refineDt s i h
    exact ⟨(ih _ h1.1).1, (ih _ h1.1).2.trans h1.2⟩

/-- A refinement step keeps the collision time inside the step
interval. -/
theorem refineStep_time_range (st : ℝ → ℝ) (R dt refineDt : ℝ) (s : SampleState) (i : Int)
    (hdt : 0 ≤ dt) (hs : 0 ≤ s.collisionTime ∧ s.collisionTime ≤ dt) :
    0 ≤ (refineStep st R dt refineDt s i).collisionTime ∧
    (refineStep st R dt refineDt s i).collisionTime ≤ dt := by
  simp only [refineStep]
  have hclamp0 : 0 ≤ max 0 (min dt (s.minDistTime + i * refineDt)) := le_max_left _ _
  have hclamp1 : max 0 (min dt (s.minDistTime + i * refineDt)) ≤ dt :=
    max_le hdt (min_le_left _ _)
  split_ifs <;> simp_all

/-- The refinement loop keeps the collision time inside the step
interval. -/
theorem refineFold_time_range (st : ℝ → ℝ) (R dt refineDt : ℝ) (l : List Int)
    (hdt : 0 ≤ dt) :
    ∀ s : SampleState, 0 ≤ s.collisionTime ∧ s.collisionTime ≤ dt →
      0 ≤ (l.foldl (refineStep st R dt refineDt) s).collisionTime ∧
      (l.foldl (refineStep st R dt refineDt) s).collisionTime ≤ dt := by
  induction l with
  | nil => exact fun s hs => hs
  | cons i rest ih =>
    intro s hs
    rw [List.foldl_cons]
    exact ih _ (refineStep_time_range st R dt refineDt s i hdt hs)

/-- Every sample time lies inside the step interval. -/
theorem sampleTimes_mem_range (dt : ℝ) (hdt : 0 ≤ dt) :
    ∀ t ∈ sampleTimes dt, 0 ≤ t ∧ t ≤ dt := by
  intro t ht
  unfold sampleTimes at ht
  rw [List.mem_map] at ht
  obtain ⟨i, hi, rfl⟩ := ht
  rw [List.mem_range] at hi
  have hi10 : (i : ℝ) ≤ 10 := by exact_mod_cast Nat.lt_succ_iff.mp hi
  have hi0 : (0 : ℝ) ≤ (i : ℝ) := Nat.cast_nonneg i
  constructor
  · exact div_nonneg (mul_nonneg hdt hi0) (by norm_num)
  · rw [div_le_iff₀ (by norm_num : (0:ℝ) < 10)]
    nlinarith

/-- The sample times are listed in increasing order. -/
theorem sampleTimes_sorted (dt : ℝ) (hdt : 0 ≤ dt) :
    (sampleTimes dt).Sorted (· ≤ ·) := by
  unfold sampleTimes
  refine List.Pairwise.map _ ?_ (List.pairwise_lt_range 11)
  intro a b hab
  have ha : (a : ℝ) ≤ b := by exact_mod_cast hab.le
  have h10 : (0:ℝ) < 10 := by norm_num
  rw [div_le_div_iff_of_pos_right h10]
  nlinarith

/-- The main loop over the sample times, started in the not-found
state, lands in the found state with collision time at most tj whenever
some sample time tj hits. -/
theorem sampleFold_hit (st : ℝ → ℝ) (R dt cd : ℝ) (hdt : 0 ≤ dt) (tj : ℝ)
    (htj : tj ∈ sampleTimes dt) (hhit : st tj < R) :
    ((sampleTimes dt).foldl (sampleStep st R) ⟨cd, 0, false, dt⟩).found = true ∧
    ((sampleTimes dt).foldl (sampleStep st R) ⟨cd, 0, false, dt⟩).collisionTime ≤ tj := by
  obtain ⟨l1, l2, hsplit⟩ := List.append_of_mem htj
  have hsorted := sampleTimes_sorted dt hdt
  rw [hsplit] at hsorted ⊢
  rw [List.foldl_append, List.foldl_cons]
  have hle : ∀ a ∈ l1, a ≤ tj := by
    rw [List.Sorted, List.pairwise_append] at hsorted
    exact fun a ha => hsorted.2.2 a ha tj (List.mem_cons_self tj l2)
  have hQ := sampleFold_below st R l1 tj hle (⟨cd, 0, false, dt⟩ : SampleState)
    (by intro h; simp at h)
  have hstep := sampleStep_hit st R _ tj tj hhit (le_refl tj) hQ
  have hrest := sampleFold_found_true st R l2 _ hstep.1
  refine ⟨hrest.1, ?_⟩
  rw [hrest.2]
  exact hstep.2

/-- The sampling core reports a collision time inside the step
interval, and reports a collision with time at most tj whenever some
sample time tj hits. -/
theorem predictCore_spec (st : ℝ → ℝ) (R cd dt : ℝ) (hdt : 0 < dt) :
    (0 ≤ (predictCore st R cd dt).collisionTime ∧
      (predictCore st R cd dt).collisionTime ≤ dt) ∧
    ∀ tj ∈ sampleTimes dt, st tj < R →
      (predictCore st R cd dt).willCollide = true ∧
      (predictCore st R cd dt).collisionTime ≤ tj := by
  have hs1r := sampleFold_time_range st R dt (sampleTimes dt)
    (sampleTimes_mem_range dt hdt.le) ⟨cd, 0, false, dt⟩ ⟨hdt.le, le_refl dt⟩
  constructor
  · simp only [predictCore]
    split_ifs with hrc hf hf
    · exact refineFold_time_range st R dt (dt / (2 * 10)) _ hdt.le _ hs1r
    · exact ⟨hdt.le, le_refl dt⟩
    · exact hs1r
    · exact ⟨hdt.le, le_refl dt⟩
  · intro tj htj hhit
    have hcore := sampleFold_hit st R dt cd hdt.le tj htj hhit
    simp only [predictCore]
    split_ifs with hrc hf hf
    · have hr := refineFold_found st R dt (dt / (2 * 10)) [-2, -1, 0, 1, 2] _ hcore.1
      exact ⟨hr.1, hr.2.trans hcore.2⟩
    · have hr := refineFold_found st R dt (dt / (2 * 10)) [-2, -1, 0, 1, 2] _ hcore.1
      exact absurd hr.1 hf
    · exact hcore
    · exact absurd hcore.1 hf

/-- C10.  For every particle pair and positive dt, predictCollision
reports an immediate collision at time 0 when the current separation is
below 1.1 times the summed radii; otherwise it samples the quadratic
relative trajectory at the eleven equally spaced times dt j / 10 and,
whenever such a sample falls below the summed radii, reports a
collision whose time is at most that sample time (the refinement can
only lower it); in all cases the reported collision time lies in
the interval from 0 to dt. -/
theorem predictCollision_spec (p1 p2 : ParticleT ℝ) (dt : ℝ) (hdt : 0 < dt) :
    (0 ≤ (predictCollision p1 p2 dt).collisionTime ∧
      (predictCollision p1 p2 dt).collisionTime ≤ dt) ∧
    ((p1.position - p2.position).norm < (p1.radius + p2.radius) * 1.1 →
      predictCollision p1 p2 dt = ⟨true, 0, (p1.position - p2.position).norm⟩) ∧
    (¬ (p1.position - p2.position).norm < (p1.radius + p2.radius) * 1.1 →
      ∀ j : Nat, j < 11 →
        ((p1.position - p2.position) + (p1.velocity - p2.velocity) * (dt * (j : ℝ) / 10)
          + calcMutualAcceleration p1 p2
            * (0.5 * (dt * (j : ℝ) / 10) * (dt * (j : ℝ) / 10))).norm
          < p1.radius + p2.radius →
        (predictCollision p1 p2 dt).willCollide = true ∧
        (predictCollision p1 p2 dt).collisionTime ≤ dt * (j : ℝ) / 10) := by
  by_cases hearly : (p1.position - p2.position).norm < (p1.radius + p2.radius) * 1.1
  · have hval : predictCollision p1 p2 dt = ⟨true, 0, (p1.position - p2.position).norm⟩ := by
      simp only [predictCollision]
      rw [if_pos hearly]
    rw [hval]
    exact ⟨⟨le_refl 0, hdt.le⟩, fun _ => rfl, fun h => absurd hearly h⟩
  · have hval : predictCollision p1 p2 dt =
        predictCore
          (fun t : ℝ => ((p1.position - p2.position) + (p1.velocity - p2.velocity) * t
            + calcMutualAcceleration p1 p2 * (0.5 * t * t)).norm)
          (p1.radius + p2.radius) ((p1.position - p2.position).norm) dt := by
      simp only [predictCollision]
      rw [if_neg hearly]
    rw [hval]
    have hcore := predictCore_spec
      (fun t : ℝ => ((p1.position - p2.position) + (p1.velocity - p2.velocity) * t
        + calcMutualAcceleration p1 p2 * (0.5 * t * t)).norm)
      (p1.radius + p2.radius) ((p1.position - p2.position).norm) dt hdt
    refine ⟨hcore.1, fun h => absurd h hearly, fun _ j hj hhit => ?_⟩
    refine hcore.2 (dt * (j : ℝ) / 10) ?_ hhit
    unfold sampleTimes
    rw [List.mem_map]
    exact ⟨j, List.mem_range.mpr hj, rfl⟩

/-- C10 witness at a concrete particle pair and dt = 1. -/
theorem predictCollision_spec_witness :
    (0 : ℝ) < 1 ∧
    (0 ≤ (predictCollision cp1 cp2 1).collisionTime ∧
      (predictCollision cp1 cp2 1).collisionTime ≤ 1) :=
  ⟨by norm_num, (predictCollision_spec cp1 cp2 1 (by norm_num)).1⟩

/-- Trying the four children preserves any invariant that single
insertions preserve. -/
theorem insertFour_pres (P : QuadTree α → Prop)
    (ins : QuadTree α → ParticleT α → QuadTree α × Bool)
    (hins : ∀ c p, P c → P (ins c p).1)
    (c0 c1 c2 c3 : QuadTree α) (p : ParticleT α)
    (h0 : P c0) (h1 : P c1) (h2 : P c2) (h3 : P c3) :
    P (insertFour ins c0 c1 c2 c3 p).1.1 ∧
    P (insertFour ins c0 c1 c2 c3 p).1.2.1 ∧
    P (insertFour ins c0 c1 c2 c3 p).1.2.2.1 ∧
    P (insertFour ins c0 c1 c2 c3 p).1.2.2.2 := by
  simp only [insertFour]
  split_ifs <;>
    exact ⟨by first | exact hins _ _ h0 | exact h0,
           by first | exact hins _ _ h1 | exact h1,
           by first | exact hins _ _ h2 | exact h2,
           by first | exact hins _ _ h3 | exact h3⟩

/-- The redistribution loop preserves any invariant that single
insertions preserve. -/
theorem redistribute_pres (P : QuadTree α → Prop)
    (ins : QuadTree α → ParticleT α → QuadTree α × Bool)
    (hins : ∀ c p, P c → P (ins c p).1) :
    ∀ (qs : List (ParticleT α)) (c0 c1 c2 c3 : QuadTree α),
      P c0 → P c1 → P c2 → P c3 →
      P (redistribute ins qs (c0, c1, c2, c3)).2.1 ∧
      P (redistribute ins qs (c0, c1, c2, c3)).2.2.1 ∧
      P (redistribute ins qs (c0, c1, c2, c3)).2.2.2.1 ∧
      P (redistribute ins qs (c0, c1, c2, c3)).2.2.2.2 := by
  intro qs
  induction qs with
  | nil => exact fun c0 c1 c2 c3 h0 h1 h2 h3 => ⟨h0, h1, h2, h3⟩
  | cons q rest ih =>
    intro c0 c1 c2 c3 h0 h1 h2 h3
    rw [redistribute]
    have h4 := insertFour_pres P ins hins c0 c1 c2 c3 q h0 h1 h2 h3
    rcases hfour : (insertFour ins c0 c1 c2 c3 q).1 with ⟨d0, d1, d2, d3⟩
    rw [hfour] at h4
    exact ih d0 d1 d2 d3 h4.1 h4.2.1 h4.2.2.1 h4.2.2.2

/-- Fuel-indexed preservation of the capacity invariant by insertion. -/
theorem insert_capInv (fuel : Nat) :
    ∀ (t : QuadTree α) (p : ParticleT α),
      capInvB t = true → capInvB (insert fuel t p).1 = true := by
  induction fuel with
  | zero => exact fun t p h => h
  | succ fuel ih =>
    intro t p h
    simp only [insert]
    split_ifs with hcont
    · match t with
      | .leaf b d tm ts cm qs =>
        simp only
        split_ifs with hcond
        · simp only [capInvB] at h ⊢
          rcases Bool.or_eq_true_iff.mp h with h | h
          · rcases hcond with hlen | hdep
            · refine Bool.or_eq_true_iff.mpr (Or.inl ?_)
              simp only [decide_eq_true_eq] at h ⊢
              simp only [List.length_append, List.length_singleton]
              omega
            · exact Bool.or_eq_true_iff.mpr (Or.inr (by simp [hdep]))
          · exact Bool.or_eq_true_iff.mpr (Or.inr h)
        · have hfresh : capInvB (QuadTree.leaf (quadNW b) (d + 1) (0:α) 0 Vec.zero []) = true ∧
              capInvB (QuadTree.leaf (quadNE b) (d + 1) (0:α) 0 Vec.zero []) = true ∧
              capInvB (QuadTree.leaf (quadSW b) (d + 1) (0:α) 0 Vec.zero []) = true ∧
              capInvB (QuadTree.leaf (quadSE b) (d + 1) (0:α) 0 Vec.zero []) = true := by
            refine ⟨?_, ?_, ?_, ?_⟩ <;> simp [capInvB, MAX_CAPACITY]
          have hsub := redistribute_pres (fun c => capInvB c = true)
            (fun t' p' => insert fuel t' p') (fun c q hc => ih c q hc) qs
            _ _ _ _ hfresh.1 hfresh.2.1 hfresh.2.2.1 hfresh.2.2.2
          rcases hparts : subdivideParts (fun t' p' => insert fuel t' p') b d qs
            with ⟨kept, ⟨e0, e1, e2, e3⟩⟩
          rw [subdivideParts, freshChildren] at hparts
          rw [hparts] at hsub
          simp only at hsub
          have hfour := insertFour_pres (fun c => capInvB c = true)
            (fun t' p' => insert fuel t' p') (fun c q hc => ih c q hc)
            e0 e1 e2 e3 p hsub.1 hsub.2.1 hsub.2.2.1 hsub.2.2.2
          rcases hf4 : (insertFour (fun t' p' => insert fuel t' p') e0 e1 e2 e3 p).1
            with ⟨f0, f1, f2, f3⟩
          rw [hf4] at hfour
          simp only [hparts, hf4, capInvB]
          simp only [Bool.and_eq_true]
          exact ⟨⟨⟨hfour.1, hfour.2.1⟩, hfour.2.2.1⟩, hfour.2.2.2⟩
      | .node b d tm ts cm qs c0 c1 c2 c3 =>
        simp only
        simp only [capInvB, Bool.and_eq_true] at h
        split_ifs with hdep
        · simp only [capInvB, Bool.and_eq_true]
          exact h
        · have hfour := insertFour_pres (fun c => capInvB c = true)
            (fun t' p' => insert fuel t' p') (fun c q hc => ih c q hc)
            c0 c1 c2 c3 p h.1.1.1 h.1.1.2 h.1.2 h.2
          rcases hf4 : (insertFour (fun t' p' => insert fuel t' p') c0 c1 c2 c3 p).1
            with ⟨f0, f1, f2, f3⟩
          rw [hf4] at hfour
          simp only [hf4, capInvB, Bool.and_eq_true]
          exact ⟨⟨⟨hfour.1, hfour.2.1⟩, hfour.2.2.1⟩, hfour.2.2.2⟩
    · exact h

/-- C6.  Inserting any sequence of particles preserves the capacity
bound (every leaf holds at most MAX_CAPACITY particles unless its depth
is MAX_DEPTH), and insertion into an undivided leaf whose bounds
contain the particle appends to the leaf exactly when the leaf has
fewer than MAX_CAPACITY particles or sits at MAX_DEPTH; otherwise the
result is a divided node (subdivide and recurse into the children). -/
theorem insert_capacity_bound :
    (∀ (fuel : Nat) (t : QuadTree α) (ps : List (ParticleT α)),
      capInvB t = true → capInvB (insertList fuel t ps) = true) ∧
    (∀ (fuel : Nat) (b : BoundsT α) (d : Nat) (tm ts : α) (cm : Vec α)
        (qs : List (ParticleT α)) (p : ParticleT α),
      b.contains p.position →
      ((insert (fuel + 1) (QuadTree.leaf b d tm ts cm qs) p).1 =
          QuadTree.leaf b d tm ts cm (qs ++ [p]) ↔
        (qs.length < MAX_CAPACITY ∨ d = MAX_DEPTH))) := by
  constructor
  · intro fuel t ps
    induction ps generalizing t with
    | nil => exact fun h => h
    | cons q rest ih =>
      intro h
      rw [insertList, List.foldl_cons]
      exact ih _ (insert_capInv fuel t q h)
  · intro fuel b d tm ts cm qs p hcont
    constructor
    · intro heq
      by_contra hcond
      simp only [insert, QuadTree.bounds] at heq
      rw [if_pos hcont, if_neg hcond] at heq
      rcases hparts : subdivideParts (fun t' p' => insert fuel t' p') b d qs
        with ⟨kept, ⟨e0, e1, e2, e3⟩⟩
      rw [hparts] at heq
      simp only at heq
      rcases hf4 : insertFour (fun t' p' => insert fuel t' p') e0 e1 e2 e3 p
        with ⟨⟨f0, f1, f2, f3⟩, ok⟩
      rw [hf4] at heq
      simp only at heq
      exact QuadTree.noConfusion heq
    · intro hcond
      simp only [insert, QuadTree.bounds]
      rw [if_pos hcont, if_pos hcond]

/-- A point contained in a parent box is accepted by the first of the
four quadrant children (in the source order nw, ne, sw, se) whose
half-open bounds contain it, and rejected by the earlier ones. -/
theorem quadrant_cases (b : BoundsT α) (v : Vec α) (h : b.contains v) :
    (quadNW b).contains v ∨
    (¬ (quadNW b).contains v ∧ (quadNE b).contains v) ∨
    (¬ (quadNW b).contains v ∧ ¬ (quadNE b).contains v ∧ (quadSW b).contains v) ∨
    (¬ (quadNW b).contains v ∧ ¬ (quadNE b).contains v ∧ ¬ (quadSW b).contains v ∧
      (quadSE b).contains v) := by
  obtain ⟨hx0, hx1, hy0, hy1⟩ := h
  simp only [quadNW, quadNE, quadSW, quadSE, setBounds, BoundsT.contains]
  rcases le_or_lt (b.xmin + b.width / 2) v.x with hx | hx <;>
    rcases le_or_lt (b.ymin + b.height / 2) v.y with hy | hy
  · exact Or.inr (Or.inl ⟨fun hc => absurd hc.2.1 (not_lt.mpr hx),
      ⟨hx, by linarith, hy, by linarith⟩⟩)
  · exact Or.inr (Or.inr (Or.inr ⟨fun hc => absurd hc.2.1 (not_lt.mpr hx),
      fun hc => absurd hc.2.2.1 (not_le.mpr hy),
      fun hc => absurd hc.2.1 (not_lt.mpr hx),
      ⟨hx, by linarith, hy0, hy⟩⟩))
  · exact Or.inl ⟨hx0, hx, hy, by linarith⟩
  · exact Or.inr (Or.inr (Or.inl ⟨fun hc => absurd hc.2.2.1 (not_le.mpr hy),
      fun hc => absurd hc.1 (not_le.mpr hx),
      ⟨hx0, hx, hy0, hy⟩⟩))

/-- Insertion of a contained particle into the four fresh quadrant
leaves of a subdivision step succeeds, appends it to exactly one child,
and leaves the children as quadrant leaves. -/
theorem insertFour_quadStep (f : Nat) (b : BoundsT α) (d : Nat)
    (a0 a1 a2 a3 s0 s1 s2 s3 : α) (m0 m1 m2 m3 : Vec α)
    (l0 l1 l2 l3 : List (ParticleT α)) (p : ParticleT α)
    (hb : b.contains p.position)
    (hlen : l0.length + l1.length + l2.length + l3.length < MAX_CAPACITY) :
    ∃ k0 k1 k2 k3 : List (ParticleT α),
      insertFour (fun t' p' => insert (f + 1) t' p')
        (QuadTree.leaf (quadNW b) (d + 1) a0 s0 m0 l0)
        (QuadTree.leaf (quadNE b) (d + 1) a1 s1 m1 l1)
        (QuadTree.leaf (quadSW b) (d + 1) a2 s2 m2 l2)
        (QuadTree.leaf (quadSE b) (d + 1) a3 s3 m3 l3) p
      = ((QuadTree.leaf (quadNW b) (d + 1) a0 s0 m0 k0,
          QuadTree.leaf (quadNE b) (d + 1) a1 s1 m1 k1,
          QuadTree.leaf (quadSW b) (d + 1) a2 s2 m2 k2,
          QuadTree.leaf (quadSE b) (d + 1) a3 s3 m3 k3), true) ∧
      k0.length + k1.length + k2.length + k3.length
        = l0.length + l1.length + l2.length + l3.length + 1 := by
  have hins_fail : ∀ (qb : BoundsT α) (aa ss : α) (mm : Vec α) (ll : List (ParticleT α)),
      ¬ qb.contains p.position →
      insert (f + 1) (QuadTree.leaf qb (d + 1) aa ss mm ll) p
        = (QuadTree.leaf qb (d + 1) aa ss mm ll, false) := by
    intro qb aa ss mm ll hn
    simp only [insert, QuadTree.bounds]
    rw [if_neg hn]
  have hins_ok : ∀ (qb : BoundsT α) (aa ss : α) (mm : Vec α) (ll : List (ParticleT α)),
      qb.contains p.position → ll.length < MAX_CAPACITY →
      insert (f + 1) (QuadTree.leaf qb (d + 1) aa ss mm ll) p
        = (QuadTree.leaf qb (d + 1) aa ss mm (ll ++ [p]), true) := by
    intro qb aa ss mm ll hc hl
    simp only [insert, QuadTree.bounds]
    rw [if_pos hc, if_pos (Or.inl hl)]
  rcases quadrant_cases b p.position hb with h | ⟨hn0, h⟩ | ⟨hn0, hn1, h⟩ | ⟨hn0, hn1, hn2, h⟩
  · refine ⟨l0 ++ [p], l1, l2, l3, ?_,
      by simp only [List.length_append, List.length_singleton]; omega⟩
    simp only [insertFour]
    rw [hins_ok _ _ _ _ _ h (by omega)]
    simp
  · refine ⟨l0, l1 ++ [p], l2, l3, ?_,
      by simp only [List.length_append, List.length_singleton]; omega⟩
    simp only [insertFour]
    rw [hins_fail _ _ _ _ _ hn0, hins_ok _ _ _ _ _ h (by omega)]
    simp
  · refine ⟨l0, l1, l2 ++ [p], l3, ?_,
      by simp only [List.length_append, List.length_singleton]; omega⟩
    simp only [insertFour]
    rw [hins_fail _ _ _ _ _ hn0, hins_fail _ _ _ _ _ hn1,
      hins_ok _ _ _ _ _ h (by omega)]
    simp
  · refine ⟨l0, l1, l2, l3 ++ [p], ?_,
      by simp only [List.length_append, List.length_singleton]; omega⟩
    simp only [insertFour]
    rw [hins_fail _ _ _ _ _ hn0, hins_fail _ _ _ _ _ hn1, hins_fail _ _ _ _ _ hn2,
      hins_ok _ _ _ _ _ h (by omega)]
    simp

/-- The redistribution loop over contained particles whose count fits
under the capacity bound together with the children payloads places
every particle into a child: nothing is kept in the parent. -/
theorem redistribute_quad (f : Nat) (b : BoundsT α) (d : Nat) :
    ∀ (qs : List (ParticleT α)) (a0 a1 a2 a3 s0 s1 s2 s3 : α) (m0 m1 m2 m3 : Vec α)
      (l0 l1 l2 l3 : List (ParticleT α)),
      (∀ q ∈ qs, b.contains q.position) →
      l0.length + l1.length + l2.length + l3.length + qs.length ≤ MAX_CAPACITY →
      (redistribute (fun t' p' => insert (f + 1) t' p') qs
        (QuadTree.leaf (quadNW b) (d + 1) a0 s0 m0 l0,
         QuadTree.leaf (quadNE b) (d + 1) a1 s1 m1 l1,
         QuadTree.leaf (quadSW b) (d + 1) a2 s2 m2 l2,
         QuadTree.leaf (quadSE b) (d + 1) a3 s3 m3 l3)).1 = [] := by
  intro qs
  induction qs with
  | nil =>
    intros
    rw [redistribute]
  | cons q rest ih =>
    intro a0 a1 a2 a3 s0 s1 s2 s3 m0 m1 m2 m3 l0 l1 l2 l3 hcont hlen
    rw [redistribute]
    obtain ⟨k0, k1, k2, k3, hfour, hklen⟩ :=
      insertFour_quadStep f b d a0 a1 a2 a3 s0 s1 s2 s3 m0 m1 m2 m3 l0 l1 l2 l3 q
        (hcont q (List.mem_cons_self q rest))
        (by simp only [List.length_cons] at hlen; omega)
    rw [hfour]
    simp only [if_true]
    exact ih a0 a1 a2 a3 s0 s1 s2 s3 m0 m1 m2 m3 k0 k1 k2 k3
      (fun q' hq' => hcont q' (List.mem_cons_of_mem q hq'))
      (by simp only [List.length_cons] at hlen; omega)

/-- C5.  A quadtree node is structurally either an undivided leaf or a
divided node with exactly four children; and subdividing a full leaf
whose resident particles are all contained in its bounds (including
positions on the shared edges of the children) leaves no particle in
the now-divided parent: the kept list is empty. -/
theorem subdivide_empties_leaf (fuel : Nat) (b : BoundsT α) (d : Nat) (tm ts : α)
    (cm : Vec α) (ps : List (ParticleT α))
    (hcont : ∀ q ∈ ps, b.contains q.position)
    (hlen : ps.length ≤ MAX_CAPACITY) :
    ∃ c0 c1 c2 c3 : QuadTree α,
      QuadTree.subdivide (fuel + 1) (QuadTree.leaf b d tm ts cm ps)
        = QuadTree.node b d tm ts cm [] c0 c1 c2 c3 := by
  have hkept : (subdivideParts (fun t' p' => insert (fuel + 1) t' p') b d ps).1 = [] := by
    rw [subdivideParts, freshChildren]
    exact redistribute_quad fuel b d ps 0 0 0 0 0 0 0 0 Vec.zero Vec.zero Vec.zero Vec.zero
      [] [] [] [] hcont (by simpa using hlen)
  rcases hparts : subdivideParts (fun t' p' => insert (fuel + 1) t' p') b d ps
    with ⟨kept, ⟨e0, e1, e2, e3⟩⟩
  rw [hparts] at hkept
  simp only at hkept
  subst hkept
  refine ⟨e0, e1, e2, e3, ?_⟩
  rw [QuadTree.subdivide, hparts]

/-- C5 witness at a concrete rational leaf with one contained
particle. -/
theorem subdivide_empties_leaf_witness :
    ∃ c0 c1 c2 c3 : QuadTree ℚ,
      QuadTree.subdivide 1 (QuadTree.leaf bQ 1 (0 : ℚ) 0 Vec.zero [pQ])
        = QuadTree.node bQ 1 (0 : ℚ) 0 Vec.zero [] c0 c1 c2 c3 :=
  subdivide_empties_leaf 0 bQ 1 0 0 Vec.zero [pQ]
    (by
      intro q hq
      simp only [List.mem_singleton] at hq
      subst hq
      norm_num [bQ, pQ, testP, setBounds, BoundsT.contains])
    (by decide)

/-- C6 witness at a concrete rational tree: the capacity invariant
survives an insertion sequence, and insertion into the empty leaf
appends. -/
theorem insert_capacity_bound_witness :
    capInvB (insertList 1 tQ [pQ]) = true ∧
    (insert 1 (QuadTree.leaf bQ 1 (0 : ℚ) 0 Vec.zero []) pQ).1 =
      QuadTree.leaf bQ 1 (0 : ℚ) 0 Vec.zero ([] ++ [pQ]) :=
  ⟨insert_capacity_bound.1 1 tQ [pQ] (by decide),
   (insert_capacity_bound.2 0 bQ 1 0 0 Vec.zero [] pQ
      (by norm_num [bQ, pQ, testP, setBounds, BoundsT.contains])).mpr
    (Or.inl (by decide))⟩

/-- Writing a particle back by id does not change the id sequence of
the particle list. -/
theorem setById_idMap (store : List (ParticleT ℝ)) (q : ParticleT ℝ) :
    (setById store q).map (fun r => r.id) = store.map (fun r => r.id) := by
  induction store with
  | nil => rfl
  | cons r rest ih =>
    simp only [setById, List.map_cons] at ih ⊢
    by_cases h : r.id = q.id
    · rw [if_pos h, ih, h]
    · rw [if_neg h, ih]

/-- The neighbour loop does not change the id sequence of the particle
list. -/
theorem neighbourLoop_idMap (dt : ℝ) (center : ParticleT ℝ) (cands : List (ParticleT ℝ)) :
    ∀ store : List (ParticleT ℝ),
      (neighbourLoop dt store center cands).1.map (fun r => r.id) =
        store.map (fun r => r.id) := by
  induction cands with
  | nil => intro store; rfl
  | cons c rest ih =>
    intro store
    simp only [neighbourLoop]
    rcases hfind : findById store c.id with _ | q
    · exact ih store
    · simp only [hfind]
      by_cases hskip : center.id = q.id ∨ q.id ≤ center.id ∨ q.markForDeletion = true
      · rw [if_pos hskip]
        exact ih store
      · rw [if_neg hskip]
        by_cases hcoll : (predictCollision center q dt).willCollide
        · rw [if_pos hcoll]
          simp only
          rw [setById_idMap, setById_idMap]
        · rw [if_neg hcoll]
          exact ih store

/-- One center pass does not change the id sequence of the particle
list. -/
theorem centerPass_idMap (tree : QuadTree ℝ) (dt : ℝ) (store : List (ParticleT ℝ))
    (i : Nat) :
    (centerPass tree dt store i).1.map (fun r => r.id) = store.map (fun r => r.id) := by
  unfold centerPass
  rcases hi : store[i]? with _ | center
  · rfl
  · simp only
    exact neighbourLoop_idMap dt center _ store

/-- The sweep does not change the id sequence of the particle list. -/
theorem sweepAux_idMap (tree : QuadTree ℝ) (dt : ℝ) (k : Nat) :
    ∀ (store : List (ParticleT ℝ)) (i : Nat),
      (sweepAux tree dt k store i).1.map (fun r => r.id) = store.map (fun r => r.id) := by
  induction k with
  | zero => intro store i; rfl
  | succ k ih =>
    intro store i
    simp only [sweepAux]
    rw [ih, centerPass_idMap]

/-- Every event of one center pass has the current slot-i particle as
its center. -/
theorem centerPass_events_center (tree : QuadTree ℝ) (dt : ℝ)
    (store : List (ParticleT ℝ)) (i : Nat) :
    ∀ ev ∈ (centerPass tree dt store i).2, ∃ c, store[i]? = some c ∧ ev.center = c := by
  intro ev hev
  unfold centerPass at hev
  rcases hi : store[i]? with _ | center
  · rw [hi] at hev
    simp at hev
  · simp only [hi] at hev
    exact ⟨center, rfl, (neighbourLoop_events dt store center _ ev hev).1⟩

/-- One center pass emits at most one event. -/
theorem centerPass_events_len (tree : QuadTree ℝ) (dt : ℝ) (store : List (ParticleT ℝ))
    (i : Nat) : (centerPass tree dt store i).2.length ≤ 1 := by
  unfold centerPass
  rcases hi : store[i]? with _ | center
  · simp
  · simp only
    exact neighbourLoop_events_len dt store center _

/-- Every event of the sweep from slot i for k slots has a center
whose id sits at some slot j of the id sequence with i ≤ j < i + k. -/
theorem sweepAux_events_center (tree : QuadTree ℝ) (dt : ℝ) (k : Nat) :
    ∀ (store : List (ParticleT ℝ)) (i : Nat) (L : List Int),
      store.map (fun r => r.id) = L →
      ∀ ev ∈ (sweepAux tree dt k store i).2,
        ∃ j, i ≤ j ∧ j < i + k ∧ L[j]? = some ev.center.id := by
  induction k with
  | zero =>
    intro store i L hL ev hev
    simp [sweepAux] at hev
  | succ k ih =>
    intro store i L hL ev hev
    simp only [sweepAux, List.mem_append] at hev
    rcases hev with hev | hev
    · obtain ⟨c, hc, hevc⟩ := centerPass_events_center tree dt store i ev hev
      refine ⟨i, le_refl i, by omega, ?_⟩
      rw [← hL, List.getElem?_map, hc, hevc]
      rfl
    · obtain ⟨j, hj1, hj2, hj3⟩ := ih (centerPass tree dt store i).1 (i + 1) L
        (by rw [centerPass_idMap, hL]) ev hev
      exact ⟨j, by omega, by omega, hj3⟩

/-- Lists of length at most one are vacuously pairwise. -/
theorem pairwise_of_len_le_one {β : Type} {R : β → β → Prop} (l : List β)
    (h : l.length ≤ 1) : l.Pairwise R := by
  match l with
  | [] => exact List.Pairwise.nil
  | [a] => exact List.pairwise_singleton R a
  | a :: b :: rest => simp at h

/-- Distinct sweep events have distinct center ids when the id
sequence has no duplicates. -/
theorem sweepAux_pairwise_centers (tree : QuadTree ℝ) (dt : ℝ) (k : Nat) :
    ∀ (store : List (ParticleT ℝ)) (i : Nat) (L : List Int),
      store.map (fun r => r.id) = L → L.Nodup →
      (sweepAux tree dt k store i).2.Pairwise
        (fun e1 e2 => e1.center.id ≠ e2.center.id) := by
  induction k with
  | zero => intro store i L hL hnd; simp [sweepAux]
  | succ k ih =>
    intro store i L hL hnd
    simp only [sweepAux]
    rw [List.pairwise_append]
    refine ⟨pairwise_of_len_le_one _ (centerPass_events_len tree dt store i),
      ih _ (i + 1) L (by rw [centerPass_idMap, hL]) hnd, ?_⟩
    intro e1 he1 e2 he2
    obtain ⟨c, hc, hec⟩ := centerPass_events_center tree dt store i e1 he1
    obtain ⟨j, hj1, hj2, hj3⟩ := sweepAux_events_center tree dt k _ (i + 1) L
      (by rw [centerPass_idMap, hL]) e2 he2
    intro heq
    have hLi : L[i]? = some e1.center.id := by
      rw [← hL, List.getElem?_map, hc, hec]
      rfl
    rw [heq] at hLi
    have hij : i = j := by
      have hjlen : j < L.length := by
        by_contra hnlt
        rw [List.getElem?_eq_none (by omega)] at hj3
        exact Option.noConfusion hj3
      have hilen : i < L.length := by
        by_contra hnlt
        rw [List.getElem?_eq_none (by omega)] at hLi
        exact Option.noConfusion hLi
      exact List.getElem?_inj hilen hnd (hLi.trans hj3.symm)
    omega

/-- C4.  During one checkCollisions sweep a candidate is merged into a
center only when its id is strictly larger and it is not already marked
for deletion, and at most one merge event occurs for every unordered
pair of particles, provided the particle ids are distinct. -/
theorem checkCollisions_dedup (store : List (ParticleT ℝ)) (tree : QuadTree ℝ) (dt : ℝ)
    (hids : (store.map (fun r => r.id)).Nodup) :
    (∀ ev ∈ (checkCollisions store tree dt).2,
      ev.center.id < ev.victim.id ∧ ev.victim.markForDeletion = false) ∧
    (checkCollisions store tree dt).2.Pairwise (fun e1 e2 =>
      ¬(e1.center.id = e2.center.id ∧ e1.victim.id = e2.victim.id) ∧
      ¬(e1.center.id = e2.victim.id ∧ e1.victim.id = e2.center.id)) := by
  have hall : ∀ ev ∈ (checkCollisions store tree dt).2,
      ev.center.id < ev.victim.id ∧ ev.victim.markForDeletion = false := by
    intro ev hev
    have h := sweepAux_events tree dt store.length store 0 ev hev
    exact ⟨h.2.1, h.2.2⟩
  refine ⟨hall, ?_⟩
  have hpw : (checkCollisions store tree dt).2.Pairwise
      (fun e1 e2 => e1.center.id ≠ e2.center.id) :=
    sweepAux_pairwise_centers tree dt store.length store 0 _ rfl hids
  refine List.Pairwise.imp_of_mem ?_ hpw
  intro e1 e2 h1 h2 hne
  refine ⟨fun hcc => hne hcc.1, fun hcv => ?_⟩
  have hb1 := (hall e1 h1).1
  have hb2 := (hall e2 h2).1
  rw [hcv.1] at hb1
  rw [← hcv.2] at hb2
  exact absurd (hb1.trans hb2) (lt_irrefl _)

/-- C4 witness at the concrete three-particle store with distinct
ids. -/
theorem checkCollisions_dedup_witness :
    (∀ ev ∈ (checkCollisions store3 tree3 1).2,
      ev.center.id < ev.victim.id ∧ ev.victim.markForDeletion = false) ∧
    (checkCollisions store3 tree3 1).2.Pairwise (fun e1 e2 =>
      ¬(e1.center.id = e2.center.id ∧ e1.victim.id = e2.victim.id) ∧
      ¬(e1.center.id = e2.victim.id ∧ e1.victim.id = e2.center.id)) :=
  checkCollisions_dedup store3 tree3 1
    (by simp [store3, cp1, cp2, cp3, testP])

/-- Early-exit evaluation of predictCollision: when the current
separation is below 1.1 times the summed radii the report is an
immediate collision at time zero. -/
theorem predictCollision_early (p1 p2 : ParticleT ℝ) (dt : ℝ)
    (h : (p1.position - p2.position).norm < (p1.radius + p2.radius) * 1.1) :
    predictCollision p1 p2 dt = ⟨true, 0, (p1.position - p2.position).norm⟩ := by
  simp only [predictCollision]
  rw [if_pos h]

/-- Concrete evaluation of the collision sweep on the three-particle
scenario: particle 1 absorbs particle 2; the marked particle 2 then
still acts as a center and absorbs particle 3; compaction removes the
two marked records, so only the first survivor remains. -/
theorem sweep3_result :
    checkCollisions store3 tree3 1 =
      ([mergeInto cp1 cp2],
       [⟨cp1, cp2, mergeInto cp1 cp2⟩,
        ⟨{ cp2 with markForDeletion := true }, cp3,
          mergeInto { cp2 with markForDeletion := true } cp3⟩]) := by
  norm_num [checkCollisions, sweepAux, centerPass, neighbourLoop, findById, setById,
    removeMarked, store3, tree3, QuadTree.query, filterContains, QuadTree.bounds,
    BoundsT.intersects, BoundsT.getRight, BoundsT.getTop, BoundsT.contains, setBounds,
    rootBounds, cp1, cp2, cp3, testP, Vec.zero, Vec.norm_zero_vec, Vec.norm_x_axis,
    predictCollision_early, mergeInto, Vec.sub_def, Vec.add_def, Vec.smul_def, Vec.sdiv_def]

/-- C2 (code-bug exhibit).  On the three-particle scenario the total
mass before the collision pass is 3 but after it is 2: checkCollisions
lets the particle already marked for deletion act as a merge center, so
the mass it absorbs from particle 3 is erased together with it at
compaction, contradicting conservation of total mass. -/
theorem checkCollisions_mass_not_conserved :
    massSum (checkCollisions store3 tree3 1).1 = 2 ∧ massSum store3 = 3 := by
  rw [sweep3_result]
  constructor
  · norm_num [massSum, mergeInto, cp1, cp2, testP]
  · norm_num [massSum, store3, cp1, cp2, cp3, testP]

/-- C1 witness: a concrete merge event of the three-particle run whose
survivor momentum equals the pair momentum. -/
theorem checkCollisions_merge_momentum_witness :
    ∃ ev ∈ (checkCollisions store3 tree3 1).2,
      ev.merged.velocity * ev.merged.mass =
        ev.center.velocity * ev.center.mass + ev.victim.velocity * ev.victim.mass := by
  refine ⟨⟨cp1, cp2, mergeInto cp1 cp2⟩, by rw [sweep3_result]; simp, ?_⟩
  exact (checkCollisions_merge_momentum store3 tree3 1 _
    (by rw [sweep3_result]; simp)).2.2 (by norm_num [cp1, cp2, testP])

end NBody
